import Mathlib

/-!
# Verification of the easy-fs storage core

A shallow embedding, in Lean 4, of the easy-fs filesystem core
(`easy-fs/src/bitmap.rs`, `easy-fs/src/block_cache.rs`, `easy-fs/src/vfs.rs`),
together with theorems settling the specification claims about it.

Machine integers (`u64`) are modelled as `Nat` with explicit bounds `< 2 ^ 64`
where overflow could matter; fatal conditions (Rust `panic!` / failed `assert!`)
are modelled as `none` results of `Option`-valued functions.
-/

namespace EasyFs

/-! ## Bitmap allocator (`easy-fs/src/bitmap.rs`)

A `BitmapBlock` (`[u64; 64]`) is modelled as a `List Nat` of length 64 whose
elements are `< 2 ^ 64`; the bitmap region (the blocks the `Bitmap` struct
addresses through the block cache) is a `List` of such blocks.  `Bitmap.alloc`
and `Bitmap.dealloc` are state-passing translations of the Rust methods: they
take the region's current content and return the value produced together with
the updated content.  A failed `assert!` is `none`. -/

/-- `BLOCK_SZ`: size of a block in bytes (from the easy-fs constants). -/
def BLOCK_SZ : Nat := 512

/-- `BLOCK_BITS = BLOCK_SZ * 8`: number of bits in one bitmap block. -/
def BLOCK_BITS : Nat := BLOCK_SZ * 8

/-- `u64::MAX` as a natural number. -/
def u64MAX : Nat := 2 ^ 64 - 1

/-- `decomposition`: split a bit number into
(block ordinal, 64-bit word ordinal, in-word position), as in `bitmap.rs`:
`block_pos = bit / BLOCK_BITS; bit %= BLOCK_BITS; (block_pos, bit / 64, bit % 64)`. -/
def decomposition (bit : Nat) : Nat × Nat × Nat :=
  (bit / BLOCK_BITS, bit % BLOCK_BITS / 64, bit % BLOCK_BITS % 64)

/-- `u64::trailing_ones`, by scanning bits upward from position 0 with
enough fuel for a 64-bit word. -/
def trailingOnesAux (w : Nat) (i : Nat) : Nat → Nat
  | 0 => i
  | fuel + 1 => if w.testBit i then trailingOnesAux w (i + 1) fuel else i

/-- `w.trailing_ones()` for a `u64` value `w`. -/
def trailing_ones (w : Nat) : Nat := trailingOnesAux w 0 64

/-- `bitmap_block.iter().enumerate().find(|(_, bits64)| **bits64 != u64::MAX)`:
first 64-bit word of the block that is not all ones, with its index. -/
def findNonFull : List Nat → Option (Nat × Nat)
  | [] => none
  | w :: ws =>
    if w ≠ u64MAX then some (0, w)
    else (findNonFull ws).map (fun p => (p.1 + 1, p.2))

/-- The body of the `modify` closure in `Bitmap::alloc`, acting on the
block with ordinal `block_id`: find the first word that is not all ones,
set its lowest clear bit, and return the allocated bit number. -/
def allocBlock (block_id : Nat) (b : List Nat) : Option (Nat × List Nat) :=
  match findNonFull b with
  | none => none
  | some (bits64_pos, bits64) =>
    let inner_pos := trailing_ones bits64
    some (block_id * BLOCK_BITS + bits64_pos * 64 + inner_pos,
          b.set bits64_pos (bits64 ||| (1 <<< inner_pos)))

/-- The loop of `Bitmap::alloc` over the region's blocks, starting at block
ordinal `block_id`: return the first successful in-block allocation. -/
def allocAux : Nat → List (List Nat) → Option (Nat × List (List Nat))
  | _, [] => none
  | block_id, b :: bs =>
    match allocBlock block_id b with
    | some (pos, b2) => some (pos, b2 :: bs)
    | none =>
      match allocAux (block_id + 1) bs with
      | some (pos, bs2) => some (pos, b :: bs2)
      | none => none

/-- `Bitmap::alloc` on a region whose blocks currently hold `st`:
returns the allocated bit number and the updated region, or `none`
when every bit is already set. -/
def Bitmap.alloc (st : List (List Nat)) : Option (Nat × List (List Nat)) :=
  allocAux 0 st

/-- `Bitmap::dealloc` on a region holding `st`: decompose `bit`, assert the
targeted bit is currently set (`none` models the failed assertion), and
clear it by subtracting `1 << inner_pos` as the Rust code does. -/
def Bitmap.dealloc (st : List (List Nat)) (bit : Nat) : Option (List (List Nat)) :=
  match decomposition bit with
  | (block_pos, bits64_pos, inner_pos) =>
    let b := st.getD block_pos []
    let w := b.getD bits64_pos 0
    if w &&& (1 <<< inner_pos) > 0 then
      some (st.set block_pos (b.set bits64_pos (w - 1 <<< inner_pos)))
    else none

/-- `Bitmap::maximum`: capacity in allocatable units of a region of
`blocks` blocks. -/
def Bitmap.maximum (blocks : Nat) : Nat := blocks * BLOCK_BITS

/-- The bit of the region `st` at unit index `bit`, read through
`decomposition` exactly as the Rust code addresses it. -/
def stBit (st : List (List Nat)) (bit : Nat) : Bool :=
  match decomposition bit with
  | (block_pos, bits64_pos, inner_pos) =>
    ((st.getD block_pos []).getD bits64_pos 0).testBit inner_pos

/-- Well-formed bitmap block: 64 words, each a `u64` value. -/
def WFBlock (b : List Nat) : Prop := b.length = 64 ∧ ∀ w ∈ b, w < 2 ^ 64

/-- Well-formed bitmap region: every block is well-formed. -/
def WF (st : List (List Nat)) : Prop := ∀ b ∈ st, WFBlock b

/-- The all-zero (fully free) bitmap region of `n` blocks. -/
def emptyBitmap (n : Nat) : List (List Nat) :=
  List.replicate n (List.replicate 64 0)

/-- Repeated allocation: perform `k` successive `Bitmap.alloc` calls,
collecting the allocated unit indices in order. -/
def allocSeq : Nat → List (List Nat) → Option (List Nat × List (List Nat))
  | 0, st => some ([], st)
  | k + 1, st =>
    match Bitmap.alloc st with
    | none => none
    | some (p, st') => (allocSeq k st').map (fun r => (p :: r.1, r.2))

/-! ### List access helpers -/

lemma getD_set_self {α : Type} {l : List α} {i : Nat} (h : i < l.length) (x d : α) :
    (l.set i x).getD i d = x := by
  induction l generalizing i with
  | nil => simp at h
  | cons a t ih =>
    cases i with
    | zero => rfl
    | succ n =>
      simp only [List.set_cons_succ, List.getD_cons_succ]
      exact ih (by simpa using h)

lemma getD_set_ne {α : Type} {l : List α} {i j : Nat} (h : i ≠ j) (x d : α) :
    (l.set i x).getD j d = l.getD j d := by
  induction l generalizing i j with
  | nil => simp [List.set_nil]
  | cons a t ih =>
    cases i with
    | zero =>
      cases j with
      | zero => exact absurd rfl h
      | succ m => simp [List.getD_cons_succ]
    | succ n =>
      cases j with
      | zero => simp [List.getD_cons_zero]
      | succ m =>
        simp only [List.set_cons_succ, List.getD_cons_succ]
        exact ih (by omega)

lemma getD_lt_length {α : Type} {l : List α} {i : Nat} {d x : α}
    (h : l.getD i d = x) (hne : x ≠ d) : i < l.length := by
  by_contra hge
  rw [List.getD_eq_getElem?_getD, List.getElem?_eq_none (by omega)] at h
  exact hne h.symm

lemma mem_of_getD {α : Type} {l : List α} {i : Nat} {d : α}
    (h : i < l.length) : l.getD i d ∈ l := by
  rw [List.getD_eq_getElem?_getD, List.getElem?_eq_getElem h]
  exact List.getElem_mem h

/-! ### `trailing_ones` -/

lemma trailingOnesAux_spec (w : Nat) :
    ∀ fuel i, (∃ j, j < fuel ∧ w.testBit (i + j) = false) →
      w.testBit (trailingOnesAux w i fuel) = false ∧
      i ≤ trailingOnesAux w i fuel ∧
      ∀ k, i ≤ k → k < trailingOnesAux w i fuel → w.testBit k = true := by
  intro fuel
  induction fuel with
  | zero => intro i ⟨j, hj, _⟩; omega
  | succ n ih =>
    intro i ⟨j, hj, hbit⟩
    by_cases hb : w.testBit i
    · have hj0 : j ≠ 0 := by rintro rfl; simp [hb] at hbit
      have ⟨h1, h2, h3⟩ := ih (i + 1) ⟨j - 1, by omega, by
        have : i + 1 + (j - 1) = i + j := by omega
        rw [this]; exact hbit⟩
      refine ⟨?_, ?_, ?_⟩
      · simpa [trailingOnesAux, hb] using h1
      · simp only [trailingOnesAux, hb, if_pos]; omega
      · intro k hk1 hk2
        simp only [trailingOnesAux, hb, if_pos] at hk2
        rcases Nat.eq_or_lt_of_le hk1 with rfl | hlt
        · exact hb
        · exact h3 k (by omega) hk2
    · refine ⟨?_, ?_, ?_⟩
      · simp [trailingOnesAux, hb]
      · simp [trailingOnesAux, hb]
      · intro k hk1 hk2
        simp [trailingOnesAux, hb] at hk2
        omega

lemma u64MAX_lt : u64MAX < 2 ^ 64 := by
  simp only [u64MAX]; omega

lemma testBit_u64MAX (j : Nat) : u64MAX.testBit j = decide (j < 64) := by
  rw [show u64MAX = 2 ^ 64 - 1 from rfl, Nat.testBit_two_pow_sub_one]

lemma word_full_iff {w : Nat} (hw : w < 2 ^ 64) :
    w = u64MAX ↔ ∀ j, j < 64 → w.testBit j = true := by
  constructor
  · rintro rfl j hj
    rw [testBit_u64MAX]
    simp [hj]
  · intro h
    refine Nat.eq_of_testBit_eq fun i => ?_
    by_cases hi : i < 64
    · rw [h i hi, testBit_u64MAX]
      simp [hi]
    · rw [Nat.testBit_lt_two_pow (lt_of_lt_of_le hw (Nat.pow_le_pow_right (by omega) (by omega))),
        testBit_u64MAX]
      simp
      omega

lemma exists_clear_of_ne_max {w : Nat} (hw : w < 2 ^ 64) (hne : w ≠ u64MAX) :
    ∃ j, j < 64 ∧ w.testBit j = false := by
  by_contra h
  push_neg at h
  exact hne ((word_full_iff hw).mpr fun j hj => by
    have := h j hj
    exact eq_true_of_ne_false fun hf => this.elim hf)

lemma trailing_ones_spec {w : Nat} (hw : w < 2 ^ 64) (hne : w ≠ u64MAX) :
    trailing_ones w < 64 ∧ w.testBit (trailing_ones w) = false ∧
      ∀ k, k < trailing_ones w → w.testBit k = true := by
  obtain ⟨j, hj, hbit⟩ := exists_clear_of_ne_max hw hne
  have h := trailingOnesAux_spec w 64 0 ⟨j, hj, by simpa using hbit⟩
  rw [show trailingOnesAux w 0 64 = trailing_ones w from rfl] at h
  obtain ⟨h1, -, h3⟩ := h
  refine ⟨?_, h1, fun k hk => h3 k (Nat.zero_le _) hk⟩
  by_contra hge
  have hj2 := h3 j (Nat.zero_le _) (by omega)
  rw [hbit] at hj2
  exact Bool.false_ne_true hj2

/-! ### Block-level allocation -/

/-- The `k`-th bit of a single bitmap block, `k < BLOCK_BITS`. -/
def blockBit (b : List Nat) (k : Nat) : Bool :=
  (b.getD (k / 64) 0).testBit (k % 64)

lemma findNonFull_none {b : List Nat} :
    findNonFull b = none ↔ ∀ w ∈ b, w = u64MAX := by
  induction b with
  | nil => simp [findNonFull]
  | cons w ws ih =>
    by_cases hw : w = u64MAX
    · simp [findNonFull, hw, Option.map_eq_none, ih]
    · simp [findNonFull, hw]

lemma findNonFull_some {b : List Nat} {i w : Nat}
    (h : findNonFull b = some (i, w)) :
    i < b.length ∧ b.getD i 0 = w ∧ w ≠ u64MAX ∧ ∀ j, j < i → b.getD j 0 = u64MAX := by
  induction b generalizing i with
  | nil => simp [findNonFull] at h
  | cons a t ih =>
    by_cases ha : a = u64MAX
    · simp only [findNonFull, ha, ne_eq, not_true_eq_false, if_false] at h
      match hrec : findNonFull t with
      | none => rw [hrec] at h; simp at h
      | some (i', w') =>
        rw [hrec] at h
        simp only [Option.map_some', Option.some.injEq, Prod.mk.injEq] at h
        obtain ⟨rfl, rfl⟩ := h
        obtain ⟨h1, h2, h3, h4⟩ := ih hrec
        refine ⟨by simp only [List.length_cons]; omega, h2, h3, ?_⟩
        intro j hj
        cases j with
        | zero => simpa using ha
        | succ m => exact h4 m (by omega)
    · rw [findNonFull, if_pos (by simpa using ha)] at h
      simp only [Option.some.injEq, Prod.mk.injEq] at h
      obtain ⟨rfl, rfl⟩ := h
      exact ⟨by simp, rfl, ha, by omega⟩

lemma BLOCK_BITS_eq : BLOCK_BITS = 4096 := rfl

lemma blockBit_full {b : List Nat} (hwf : WFBlock b)
    (hall : ∀ w ∈ b, w = u64MAX) {k : Nat} (hk : k < BLOCK_BITS) :
    blockBit b k = true := by
  obtain ⟨hlen, _⟩ := hwf
  rw [BLOCK_BITS_eq] at hk
  have hdiv : k / 64 < b.length := by rw [hlen]; omega
  have hw := hall _ (mem_of_getD (d := 0) hdiv)
  rw [blockBit, hw, testBit_u64MAX]
  simp
  omega

lemma allocBlock_none {block_id : Nat} {b : List Nat} (hwf : WFBlock b) :
    allocBlock block_id b = none ↔ ∀ k, k < BLOCK_BITS → blockBit b k = true := by
  constructor
  · intro h k hk
    rw [allocBlock] at h
    match hfind : findNonFull b with
    | some p => rw [hfind] at h; simp at h
    | none =>
      exact blockBit_full hwf (findNonFull_none.mp hfind) hk
  · intro hall
    rw [allocBlock]
    match hfind : findNonFull b with
    | none => rfl
    | some (i, w) =>
      obtain ⟨hi, hgd, hne, -⟩ := findNonFull_some hfind
      exfalso
      apply hne
      have hwlt : w < 2 ^ 64 := hwf.2 _ (hgd ▸ mem_of_getD hi)
      refine (word_full_iff hwlt).mpr fun j hj => ?_
      have hi64 : i < 64 := hwf.1 ▸ hi
      have hq : (i * 64 + j) / 64 = i := by omega
      have hr : (i * 64 + j) % 64 = j := by omega
      have := hall (i * 64 + j) (by rw [BLOCK_BITS_eq]; omega)
      rwa [blockBit, hq, hr, hgd] at this

lemma allocBlock_some {block_id : Nat} {b : List Nat} {pos : Nat} {b' : List Nat}
    (hwf : WFBlock b) (h : allocBlock block_id b = some (pos, b')) :
    ∃ q, q < BLOCK_BITS ∧ pos = block_id * BLOCK_BITS + q ∧
      blockBit b q = false ∧ (∀ k, k < q → blockBit b k = true) ∧
      WFBlock b' ∧ ∀ k, blockBit b' k = (blockBit b k || decide (k = q)) := by
  rw [allocBlock] at h
  match hfind : findNonFull b with
  | none => rw [hfind] at h; simp at h
  | some (i, w) =>
    rw [hfind] at h
    simp only [Option.some.injEq, Prod.mk.injEq] at h
    obtain ⟨hpos, hb'⟩ := h
    obtain ⟨hi, hgd, hne, hbefore⟩ := findNonFull_some hfind
    have hwlt : w < 2 ^ 64 := hwf.2 _ (hgd ▸ mem_of_getD hi)
    obtain ⟨ht64, htbit, htlow⟩ := trailing_ones_spec hwlt hne
    set t := trailing_ones w with hts
    have hi64 : i < 64 := hwf.1 ▸ hi
    refine ⟨i * 64 + t, by rw [BLOCK_BITS_eq]; omega, by rw [← hpos]; ring, ?_, ?_, ?_, ?_⟩
    · have hq : (i * 64 + t) / 64 = i := by omega
      have hr : (i * 64 + t) % 64 = t := by omega
      rw [blockBit, hq, hr, hgd]
      exact htbit
    · intro k hk
      rw [blockBit]
      rcases Nat.lt_or_ge (k / 64) i with hlt | hge
      · rw [hbefore _ hlt, testBit_u64MAX]
        simp
        omega
      · have hkdiv : k / 64 = i := by omega
        have hkmod : k % 64 < t := by omega
        rw [hkdiv, hgd]
        exact htlow _ hkmod
    · rw [← hb']
      refine ⟨by simpa using hwf.1, fun x hx => ?_⟩
      rcases List.mem_or_eq_of_mem_set hx with hmem | rfl
      · exact hwf.2 _ hmem
      · rw [Nat.shiftLeft_eq, Nat.one_mul]
        exact Nat.or_lt_two_pow hwlt (Nat.pow_lt_pow_right (by omega) ht64)
    · intro k
      rw [← hb', blockBit, blockBit]
      by_cases heq : k / 64 = i
      · rw [heq, getD_set_self hi, hgd, Nat.testBit_or,
          Nat.shiftLeft_eq, Nat.one_mul, Nat.testBit_two_pow]
        have hiff : (k = i * 64 + t) ↔ (t = k % 64) := by omega
        simp [hiff]
      · rw [getD_set_ne (fun hh => heq hh.symm)]
        have hne2 : ¬ (k = i * 64 + t) := by omega
        simp [hne2]

/-! ### Region-level allocation -/

lemma stBit_cons (b : List Nat) (bs : List (List Nat)) (k : Nat) :
    stBit (b :: bs) k =
      if k < BLOCK_BITS then blockBit b k else stBit bs (k - BLOCK_BITS) := by
  by_cases hk : k < BLOCK_BITS
  · have h1 : k / BLOCK_BITS = 0 := Nat.div_eq_of_lt hk
    have h2 : k % BLOCK_BITS = k := Nat.mod_eq_of_lt hk
    rw [if_pos hk]
    simp only [stBit, decomposition, blockBit, h1, h2, List.getD_cons_zero]
  · have hge : BLOCK_BITS ≤ k := Nat.le_of_not_lt hk
    have h1 : k / BLOCK_BITS = (k - BLOCK_BITS) / BLOCK_BITS + 1 := by
      simp only [BLOCK_BITS_eq] at *
      omega
    have h2 : k % BLOCK_BITS = (k - BLOCK_BITS) % BLOCK_BITS := by
      simp only [BLOCK_BITS_eq] at *
      omega
    rw [if_neg hk]
    simp only [stBit, decomposition, h1, h2, List.getD_cons_succ]

lemma WF_cons {b : List Nat} {bs : List (List Nat)} (h : WF (b :: bs)) :
    WFBlock b ∧ WF bs :=
  ⟨h b (by simp), fun x hx => h x (by simp [hx])⟩

lemma allocAux_none {bs : List (List Nat)} (hwf : WF bs) :
    ∀ k, (allocAux k bs = none ↔ ∀ j, j < bs.length * BLOCK_BITS → stBit bs j = true) := by
  induction bs with
  | nil => intro k; simp [allocAux]
  | cons b t ih =>
    intro k
    obtain ⟨hb, ht⟩ := WF_cons hwf
    constructor
    · intro h j hj
      rw [allocAux] at h
      match hblk : allocBlock k b with
      | some p => rw [hblk] at h; simp at h
      | none =>
        rw [hblk] at h
        match hrec : allocAux (k + 1) t with
        | some p => rw [hrec] at h; simp at h
        | none =>
          have hall := (allocBlock_none hb).mp hblk
          have hrest := ((ih ht) (k + 1)).mp hrec
          rw [stBit_cons]
          by_cases hjb : j < BLOCK_BITS
          · simp [hjb, hall j hjb]
          · simp only [hjb, if_neg, not_false_iff]
            simp only [List.length_cons] at hj
            refine hrest _ ?_
            simp only [BLOCK_BITS_eq] at *
            omega
    · intro hall
      rw [allocAux]
      have hblk : allocBlock k b = none := by
        rw [allocBlock_none hb]
        intro j hj
        have := hall j (by
          simp only [List.length_cons, BLOCK_BITS_eq] at *
          omega)
        rwa [stBit_cons, if_pos hj] at this
      rw [hblk]
      have hrec : allocAux (k + 1) t = none := by
        rw [(ih ht) (k + 1)]
        intro j hj
        have := hall (j + BLOCK_BITS) (by
          simp only [List.length_cons, BLOCK_BITS_eq] at *
          omega)
        rwa [stBit_cons, if_neg (by omega), Nat.add_sub_cancel] at this
      rw [hrec]

lemma allocAux_some {bs : List (List Nat)} (hwf : WF bs) :
    ∀ k p st', allocAux k bs = some (p, st') →
      ∃ q, p = k * BLOCK_BITS + q ∧ q < bs.length * BLOCK_BITS ∧
        stBit bs q = false ∧ (∀ j, j < q → stBit bs j = true) ∧
        WF st' ∧ st'.length = bs.length ∧
        ∀ j, stBit st' j = (stBit bs j || decide (j = q)) := by
  induction bs with
  | nil => intro k p st' h; simp [allocAux] at h
  | cons b t ih =>
    intro k p st' h
    obtain ⟨hb, ht⟩ := WF_cons hwf
    rw [allocAux] at h
    match hblk : allocBlock k b with
    | some (pos, b2) =>
      rw [hblk] at h
      simp only [Option.some.injEq, Prod.mk.injEq] at h
      obtain ⟨rfl, rfl⟩ := h
      obtain ⟨q, hq4096, hpos, hqbit, hqlow, hwf2, hbits⟩ := allocBlock_some hb hblk
      refine ⟨q, hpos, ?_, ?_, ?_, ?_, by simp, ?_⟩
      · simp only [List.length_cons, BLOCK_BITS_eq] at *
        omega
      · rw [stBit_cons, if_pos hq4096]; exact hqbit
      · intro j hj
        rw [stBit_cons, if_pos (by omega)]
        exact hqlow j hj
      · intro x hx
        rcases List.mem_cons.mp hx with rfl | hmem
        · exact hwf2
        · exact ht x hmem
      · intro j
        rw [stBit_cons, stBit_cons]
        by_cases hjb : j < BLOCK_BITS
        · simp only [hjb, if_pos]
          exact hbits j
        · simp only [hjb, if_neg, not_false_iff]
          have : ¬ (j = q) := by omega
          simp [this]
    | none =>
      rw [hblk] at h
      match hrec : allocAux (k + 1) t with
      | none => rw [hrec] at h; simp at h
      | some (pos, bs2) =>
        rw [hrec] at h
        simp only [Option.some.injEq, Prod.mk.injEq] at h
        obtain ⟨rfl, rfl⟩ := h
        obtain ⟨q, hpos, hqlt, hqbit, hqlow, hwf2, hlen2, hbits⟩ := ih ht (k + 1) pos bs2 hrec
        have hall := (allocBlock_none hb).mp hblk
        refine ⟨BLOCK_BITS + q, by rw [hpos]; ring, ?_, ?_, ?_, ?_, by simp [hlen2], ?_⟩
        · simp only [List.length_cons, BLOCK_BITS_eq] at *
          omega
        · rw [stBit_cons, if_neg (by omega), Nat.add_sub_cancel_left]
          exact hqbit
        · intro j hj
          rw [stBit_cons]
          by_cases hjb : j < BLOCK_BITS
          · simp [hjb, hall j hjb]
          · simp only [hjb, if_neg, not_false_iff]
            exact hqlow _ (by omega)
        · intro x hx
          rcases List.mem_cons.mp hx with rfl | hmem
          · exact hb
          · exact hwf2 x hmem
        · intro j
          rw [stBit_cons, stBit_cons]
          by_cases hjb : j < BLOCK_BITS
          · simp only [hjb, if_pos]
            have : ¬ (j = BLOCK_BITS + q) := by omega
            simp [this]
          · simp only [hjb, if_neg, not_false_iff]
            rw [hbits (j - BLOCK_BITS)]
            have : (j - BLOCK_BITS = q) ↔ (j = BLOCK_BITS + q) := by omega
            simp [this]

/-- The behaviour of `Bitmap.alloc` on a well-formed region: `none` exactly
when the region is full, and otherwise the lowest clear bit is chosen and set. -/
lemma alloc_spec {st : List (List Nat)} (hwf : WF st) :
    (Bitmap.alloc st = none ↔ ∀ j, j < st.length * BLOCK_BITS → stBit st j = true) ∧
    (∀ p st', Bitmap.alloc st = some (p, st') →
      p < st.length * BLOCK_BITS ∧ stBit st p = false ∧
      (∀ j, j < p → stBit st j = true) ∧ WF st' ∧ st'.length = st.length ∧
      ∀ j, stBit st' j = (stBit st j || decide (j = p))) := by
  refine ⟨allocAux_none hwf 0, fun p st' h => ?_⟩
  obtain ⟨q, hq, hlt, hbit, hlow, hwf2, hlen, hbits⟩ := allocAux_some hwf 0 p st' h
  rw [Nat.zero_mul, Nat.zero_add] at hq
  subst hq
  exact ⟨hlt, hbit, hlow, hwf2, hlen, hbits⟩

/-! ### Deallocation -/

/-- Subtracting `2 ^ i` from a number whose bit `i` is set clears exactly
that bit. -/
lemma testBit_sub_two_pow {w i : Nat} (h : w.testBit i = true) (j : Nat) :
    (w - 2 ^ i).testBit j = if j = i then false else w.testBit j := by
  set a := w / 2 ^ (i + 1) with ha
  set r := w % 2 ^ (i + 1) with hr
  have hw : w = 2 ^ (i + 1) * a + r := by
    rw [ha, hr]
    exact (Nat.div_add_mod w (2 ^ (i + 1))).symm
  have hrlt : r < 2 ^ (i + 1) := Nat.mod_lt _ (Nat.pos_pow_of_pos _ (by omega))
  have hrbit : r.testBit i = true := by
    rw [hr]
    rw [Nat.testBit_mod_two_pow]
    simp [h]
  have hrge : 2 ^ i ≤ r := Nat.testBit_implies_ge hrbit
  set s := r - 2 ^ i with hs
  have hslt : s < 2 ^ i := by
    have : 2 ^ (i + 1) = 2 * 2 ^ i := by ring
    omega
  have hsub : w - 2 ^ i = 2 ^ (i + 1) * a + s := by omega
  have hr2 : r = 2 ^ i * 1 + s := by omega
  have hw2 : (w - 2 ^ i).testBit j =
      if j < i + 1 then s.testBit j else a.testBit (j - (i + 1)) := by
    rw [hsub, Nat.testBit_mul_pow_two_add a (lt_trans hslt (by omega)) j]
  have hwj : w.testBit j = if j < i + 1 then r.testBit j else a.testBit (j - (i + 1)) := by
    rw [hw, Nat.testBit_mul_pow_two_add a hrlt j]
  have hrj : ∀ m, r.testBit m = if m < i then s.testBit m else Nat.testBit 1 (m - i) := by
    intro m
    rw [hr2, Nat.testBit_mul_pow_two_add 1 hslt m]
  rcases Nat.lt_trichotomy j i with hj | rfl | hj
  · have e1 : (w - 2 ^ i).testBit j = s.testBit j := by
      rw [hw2, if_pos (by omega)]
    have e2 : w.testBit j = s.testBit j := by
      rw [hwj, if_pos (by omega), hrj, if_pos hj]
    rw [e1, e2, if_neg (by omega)]
  · have e1 : (w - 2 ^ j).testBit j = s.testBit j := by
      rw [hw2, if_pos (by omega)]
    rw [e1, if_pos rfl]
    exact Nat.testBit_lt_two_pow hslt
  · have hj2 : ¬ (j < i + 1) := by omega
    have e1 : (w - 2 ^ i).testBit j = a.testBit (j - (i + 1)) := by
      rw [hw2, if_neg hj2]
    have e2 : w.testBit j = a.testBit (j - (i + 1)) := by
      rw [hwj, if_neg hj2]
    rw [e1, if_neg (by omega), e2]

/-- Membership in a decomposed triple determines the bit number. -/
lemma decomposition_inj {x y : Nat} (h : decomposition x = decomposition y) : x = y := by
  simp only [decomposition, BLOCK_BITS_eq, Prod.mk.injEq] at h
  omega

/-- The behaviour of `Bitmap.dealloc` on a well-formed region: the targeted
bit must be set (otherwise the assertion fires), and exactly that bit is
cleared. -/
lemma one_shiftLeft (i : Nat) : 1 <<< i = 2 ^ i := by
  rw [Nat.shiftLeft_eq, Nat.one_mul]

lemma and_two_pow_pos_iff (w i : Nat) : (0 < w &&& 1 <<< i) ↔ w.testBit i = true := by
  rw [one_shiftLeft]
  constructor
  · intro h
    obtain ⟨j, hj⟩ := Nat.ne_zero_implies_bit_true (x := w &&& 2 ^ i) (by omega)
    rw [Nat.testBit_and] at hj
    obtain ⟨hwj, hpj⟩ := Bool.and_eq_true_iff.mp hj
    rw [Nat.testBit_two_pow] at hpj
    have : i = j := of_decide_eq_true hpj
    rwa [this]
  · intro h
    have : (w &&& 2 ^ i).testBit i = true := by
      rw [Nat.testBit_and, h, Nat.testBit_two_pow_self]
      rfl
    have := Nat.testBit_implies_ge this
    have : 0 < 2 ^ i := Nat.pos_pow_of_pos _ (by omega)
    omega

lemma dealloc_spec {st : List (List Nat)} (hwf : WF st) (bit : Nat) :
    (stBit st bit = false → Bitmap.dealloc st bit = none) ∧
    (stBit st bit = true → ∃ st', Bitmap.dealloc st bit = some st' ∧
      WF st' ∧ st'.length = st.length ∧ stBit st' bit = false ∧
      ∀ j, j ≠ bit → stBit st' j = stBit st j) := by
  rcases hdec : decomposition bit with ⟨bp, wp, ip⟩
  have hbitdef : stBit st bit = ((st.getD bp []).getD wp 0).testBit ip := by
    rw [stBit, hdec]
  constructor
  · intro h
    rw [hbitdef] at h
    rw [Bitmap.dealloc, hdec]
    simp only
    rw [if_neg]
    intro hpos
    rw [(and_two_pow_pos_iff _ _).mp hpos] at h
    exact Bool.noConfusion h
  · intro h
    rw [hbitdef] at h
    set b := st.getD bp [] with hb
    set w := b.getD wp 0 with hw
    have hwpos : 0 < w &&& 1 <<< ip := (and_two_pow_pos_iff _ _).mpr h
    have hwne : w ≠ 0 := by
      intro h0
      rw [h0] at h
      simp at h
    have hwp : wp < b.length := getD_lt_length hw.symm hwne
    have hbne : b ≠ [] := by
      intro h0
      rw [h0] at hwp
      simp at hwp
    have hbp : bp < st.length := getD_lt_length hb.symm hbne
    have hbmem : b ∈ st := hb ▸ mem_of_getD hbp
    have hbwf : WFBlock b := hwf b hbmem
    have hwlt : w < 2 ^ 64 := hbwf.2 w (hw ▸ mem_of_getD hwp)
    refine ⟨st.set bp (b.set wp (w - 1 <<< ip)), ?_, ?_, by simp, ?_, ?_⟩
    · rw [Bitmap.dealloc, hdec]
      simp only
      rw [← hb, ← hw, if_pos hwpos]
    · intro x hx
      rcases List.mem_or_eq_of_mem_set hx with hmem | rfl
      · exact hwf x hmem
      · refine ⟨by simpa using hbwf.1, fun y hy => ?_⟩
        rcases List.mem_or_eq_of_mem_set hy with hmem2 | rfl
        · exact hbwf.2 y hmem2
        · exact lt_of_le_of_lt (Nat.sub_le _ _) hwlt
    · rw [stBit, hdec]
      simp only
      rw [getD_set_self hbp, getD_set_self hwp, one_shiftLeft,
        testBit_sub_two_pow h, if_pos rfl]
    · intro j hj
      rcases hdec2 : decomposition j with ⟨bp2, wp2, ip2⟩
      have hne : (bp2, wp2, ip2) ≠ (bp, wp, ip) := by
        intro hcontra
        exact hj (decomposition_inj (by rw [hdec, hdec2, hcontra]))
      rw [stBit, hdec2, stBit, hdec2]
      simp only
      by_cases hbp2 : bp2 = bp
      · subst hbp2
        rw [getD_set_self hbp, ← hb]
        by_cases hwp2 : wp2 = wp
        · subst hwp2
          have hip2 : ip2 ≠ ip := by
            intro hcontra
            exact hne (by rw [hcontra])
          rw [getD_set_self hwp, ← hw, one_shiftLeft, testBit_sub_two_pow h,
            if_neg hip2]
        · rw [getD_set_ne (fun hh => hwp2 hh.symm)]
      · rw [getD_set_ne (fun hh => hbp2 hh.symm)]

/-! ### Allocation sequences from an empty region -/

lemma getD_replicate {α : Type} (n i : Nat) (x d : α) :
    (List.replicate n x).getD i d = if i < n then x else d := by
  by_cases h : i < n
  · rw [if_pos h, List.getD_eq_getElem?_getD,
      List.getElem?_eq_getElem (by simpa using h)]
    simp
  · rw [if_neg h, List.getD_eq_getElem?_getD, List.getElem?_eq_none (by simpa using h)]
    rfl

lemma WF_empty (n : Nat) : WF (emptyBitmap n) := by
  intro b hb
  rw [emptyBitmap] at hb
  rw [List.eq_of_mem_replicate hb]
  exact ⟨by simp, fun w hw => by rw [List.eq_of_mem_replicate hw]; omega⟩

lemma length_empty (n : Nat) : (emptyBitmap n).length = n := by
  simp [emptyBitmap]

lemma stBit_empty (n j : Nat) : stBit (emptyBitmap n) j = false := by
  rcases hdec : decomposition j with ⟨bp, wp, ip⟩
  rw [stBit, hdec]
  simp only [emptyBitmap, getD_replicate]
  by_cases h : bp < n
  · rw [if_pos h, getD_replicate]
    by_cases h2 : wp < 64
    · rw [if_pos h2]
      exact Nat.zero_testBit ip
    · rw [if_neg h2]
      exact Nat.zero_testBit ip
  · rw [if_neg h]
    simp only [List.getD_nil]
    exact Nat.zero_testBit ip

lemma allocSeq_spec {n : Nat} :
    ∀ (k m : Nat) (st : List (List Nat)), WF st → st.length = n →
      (∀ j, stBit st j = decide (j < m)) → m + k ≤ n * BLOCK_BITS →
      ∃ st', allocSeq k st = some (List.range' m k, st') ∧ WF st' ∧
        st'.length = n ∧ ∀ j, stBit st' j = decide (j < m + k) := by
  intro k
  induction k with
  | zero =>
    intro m st hwf hlen hbits hcap
    exact ⟨st, by simp [allocSeq], hwf, hlen, by simpa using hbits⟩
  | succ kk ih =>
    intro m st hwf hlen hbits hcap
    have hnotfull : ¬ (∀ j, j < st.length * BLOCK_BITS → stBit st j = true) := by
      intro hall
      have := hall m (by rw [hlen]; omega)
      rw [hbits m] at this
      simp at this
    match halloc : Bitmap.alloc st with
    | none => exact absurd ((alloc_spec hwf).1.mp halloc) hnotfull
    | some (p, st1) =>
      obtain ⟨hplt, hpbit, hplow, hwf1, hlen1, hbits1⟩ := (alloc_spec hwf).2 p st1 halloc
      have hpm : p = m := by
        have h1 : ¬ (p < m) := by
          intro hlt
          have := hbits p
          rw [hpbit] at this
          simp [hlt] at this
        have h2 : ¬ (m < p) := by
          intro hlt
          have := hplow m hlt
          rw [hbits m] at this
          simp at this
        omega
      subst hpm
      have hbits1' : ∀ j, stBit st1 j = decide (j < p + 1) := by
        intro j
        rw [hbits1 j, hbits j, ← Bool.decide_or]
        exact decide_eq_decide.mpr (by omega)
      obtain ⟨st2, hseq, hwf2, hlen2, hbits2⟩ :=
        ih (p + 1) st1 hwf1 (hlen1.trans hlen) hbits1' (by omega)
      refine ⟨st2, ?_, hwf2, hlen2, fun j => ?_⟩
      · simp only [allocSeq, halloc, hseq, Option.map_some', List.range'_succ]
      · rw [hbits2 j]
        exact decide_eq_decide.mpr (by omega)

/-- C2: `Bitmap::alloc` is first-fit (lowest clear bit, by block, then word,
then in-word position), returns `None` exactly on a full region, and the
derived round-trip properties from an empty bitmap. -/
theorem bitmap_alloc_first_fit_spec :
    (∀ st, WF st →
      ((Bitmap.alloc st = none ↔
          ∀ j, j < Bitmap.maximum st.length → stBit st j = true) ∧
       (∀ p st', Bitmap.alloc st = some (p, st') →
          p < Bitmap.maximum st.length ∧ stBit st p = false ∧
          (∀ j, j < p → stBit st j = true) ∧
          ∀ j, stBit st' j = (stBit st j || decide (j = p))))) ∧
    (∀ n k, k ≤ Bitmap.maximum n →
      ∃ st', allocSeq k (emptyBitmap n) = some (List.range k, st') ∧
        ∀ i, i < k → ∃ st2, Bitmap.dealloc st' i = some st2 ∧
          (Bitmap.alloc st2).map Prod.fst = some i) := by
  constructor
  · intro st hwf
    refine ⟨(alloc_spec hwf).1, fun p st' h => ?_⟩
    obtain ⟨h1, h2, h3, _, _, h6⟩ := (alloc_spec hwf).2 p st' h
    exact ⟨h1, h2, h3, h6⟩
  · intro n k hk
    rw [Bitmap.maximum] at hk
    obtain ⟨st', hseq, hwf', hlen', hbits'⟩ :=
      allocSeq_spec k 0 (emptyBitmap n) (WF_empty n) (length_empty n)
        (fun j => by rw [stBit_empty]; simp) (by omega)
    rw [← List.range_eq_range'] at hseq
    refine ⟨st', hseq, fun i hi => ?_⟩
    have hibit : stBit st' i = true := by
      rw [hbits' i]
      simp
      omega
    obtain ⟨st2, hd, hwf2, hlen2, hdbit, hdother⟩ := (dealloc_spec hwf' i).2 hibit
    refine ⟨st2, hd, ?_⟩
    have hnotfull : ¬ (∀ j, j < st2.length * BLOCK_BITS → stBit st2 j = true) := by
      intro hall
      have := hall i (by rw [hlen2, hlen']; omega)
      rw [hdbit] at this
      exact Bool.noConfusion this
    match halloc : Bitmap.alloc st2 with
    | none => exact absurd ((alloc_spec hwf2).1.mp halloc) hnotfull
    | some (p, st3) =>
      obtain ⟨hplt, hpbit, hplow, -, -, -⟩ := (alloc_spec hwf2).2 p st3 halloc
      have hpi : p = i := by
        have h1 : ¬ (p < i) := by
          intro hlt
          have he : stBit st' p = false := by
            rw [← hdother p (by omega)]
            exact hpbit
          rw [hbits' p] at he
          simp at he
          omega
        have h2 : ¬ (i < p) := by
          intro hlt
          have := hplow i hlt
          rw [hdbit] at this
          exact Bool.noConfusion this
        omega
      rw [hpi]
      rfl

/-- Witness for the first-fit theorem at a concrete one-block empty region. -/
theorem bitmap_alloc_first_fit_witness :
    (Bitmap.alloc (emptyBitmap 1)).map Prod.fst = some 0 ∧
    stBit (emptyBitmap 1) 0 = false := by
  have h := (bitmap_alloc_first_fit_spec.1 (emptyBitmap 1) (WF_empty 1)).2 0
      [(List.replicate 64 0).set 0 1] rfl
  obtain ⟨st', hseq, hfree⟩ := bitmap_alloc_first_fit_spec.2 1 1
      (by rw [Bitmap.maximum, BLOCK_BITS_eq]; omega)
  refine ⟨?_, h.2.1⟩
  rw [show Bitmap.alloc (emptyBitmap 1) =
      some (0, [(List.replicate 64 0).set 0 1]) from rfl]
  rfl

/-- C5: `Bitmap::dealloc` requires the targeted bit to be set, clears exactly
that bit, and deallocating an already-clear bit is a failed assertion
(`none`), never a silent no-op. -/
theorem bitmap_dealloc_double_free (st : List (List Nat)) (bit : Nat) (hwf : WF st) :
    (stBit st bit = false → Bitmap.dealloc st bit = none) ∧
    (stBit st bit = true → ∃ st', Bitmap.dealloc st bit = some st' ∧
      stBit st' bit = false ∧ ∀ j, j ≠ bit → stBit st' j = stBit st j) := by
  obtain ⟨h1, h2⟩ := dealloc_spec hwf bit
  refine ⟨h1, fun h => ?_⟩
  obtain ⟨st', ha, -, -, hd, he⟩ := h2 h
  exact ⟨st', ha, hd, he⟩

/-- Witness for the dealloc theorem: double free of bit 0 on an empty region
is fatal; dealloc of a set bit succeeds. -/
theorem bitmap_dealloc_double_free_witness :
    Bitmap.dealloc (emptyBitmap 1) 0 = none ∧
    (Bitmap.dealloc [(List.replicate 64 0).set 0 1] 0).isSome = true := by
  have h1 := (bitmap_dealloc_double_free (emptyBitmap 1) 0 (WF_empty 1)).1 (by decide)
  have h2 := (bitmap_dealloc_double_free [(List.replicate 64 0).set 0 1] 0
      (by
        intro b hb
        rw [List.mem_singleton] at hb
        subst hb
        refine ⟨by rfl, fun w hw => ?_⟩
        rw [show (List.replicate 64 0).set 0 1 = 1 :: List.replicate 63 0 from rfl] at hw
        rcases List.mem_cons.mp hw with rfl | hmem
        · omega
        · rw [List.eq_of_mem_replicate hmem]
          omega)).2 (by decide)
  obtain ⟨st', he, -, -⟩ := h2
  exact ⟨h1, by rw [he]; rfl⟩

/-! ## Block cache manager (`easy-fs/src/block_cache.rs`)

The manager's pool is `queue: VecDeque<(usize, Arc<Mutex<BlockCache>>)>`,
modelled as a list of entries carrying the block id and the `Arc` strong
count of the cached block (the pool's own reference included, so a resident
entry has count ≥ 1 and an entry is evictable exactly when its count is 1).
`get_block_cache` returns the handle produced (its block id and resulting
strong count) together with the updated queue; the `panic!("Run out of
BlockCache!")` is modelled as `none`. -/

/-- One resident pool entry: its block id and the `Arc` strong count. -/
structure CacheEntry where
  block_id : Nat
  strong_count : Nat
deriving DecidableEq, Repr

/-- `BLOCK_CACHE_SIZE`: pool capacity. -/
def BLOCK_CACHE_SIZE : Nat := 16

/-- A hit: `Arc::clone(&pair.1)` on the first entry with the requested id
bumps that entry's strong count. -/
def bumpFirst : List CacheEntry → Nat → List CacheEntry
  | [], _ => []
  | e :: rest, id =>
    if e.block_id == id then { e with strong_count := e.strong_count + 1 } :: rest
    else e :: bumpFirst rest id

/-- The eviction scan at capacity: drop the first entry whose strong count
is 1 (referenced only by the pool); `none` when every entry is pinned. -/
def evictFirstFree : List CacheEntry → Option (List CacheEntry)
  | [] => none
  | e :: rest =>
    if e.strong_count == 1 then some rest
    else (evictFirstFree rest).map (fun r => e :: r)

/-- `BlockCacheManager::get_block_cache`: hit returns a clone of the resident
entry; miss evicts if at capacity (fatal if all entries pinned) and admits
the new block at the tail with strong count 2 (pool + returned handle). -/
def get_block_cache (queue : List CacheEntry) (block_id : Nat) :
    Option (CacheEntry × List CacheEntry) :=
  match queue.find? (fun pair => pair.block_id == block_id) with
  | some pair =>
    some ({ pair with strong_count := pair.strong_count + 1 }, bumpFirst queue block_id)
  | none =>
    let step : Option (List CacheEntry) :=
      if queue.length == BLOCK_CACHE_SIZE then evictFirstFree queue else some queue
    step.map (fun q => (⟨block_id, 2⟩, q ++ [⟨block_id, 2⟩]))

/-- The block ids resident in a pool. -/
def poolIds (queue : List CacheEntry) : List Nat := queue.map CacheEntry.block_id

lemma bumpFirst_ids (queue : List CacheEntry) (id : Nat) :
    poolIds (bumpFirst queue id) = poolIds queue := by
  induction queue with
  | nil => rfl
  | cons e rest ih =>
    by_cases h : e.block_id == id
    · simp [bumpFirst, h, poolIds]
    · simp only [bumpFirst, h, if_neg, Bool.false_eq_true, not_false_iff, poolIds,
        List.map_cons]
      have ih2 : List.map CacheEntry.block_id (bumpFirst rest id) =
          List.map CacheEntry.block_id rest := ih
      rw [ih2]

lemma bumpFirst_length (queue : List CacheEntry) (id : Nat) :
    (bumpFirst queue id).length = queue.length := by
  induction queue with
  | nil => rfl
  | cons e rest ih =>
    by_cases h : e.block_id == id
    · simp [bumpFirst, h]
    · simp [bumpFirst, h, ih]

lemma evictFirstFree_none {queue : List CacheEntry} :
    evictFirstFree queue = none ↔ ∀ e ∈ queue, e.strong_count ≠ 1 := by
  induction queue with
  | nil => simp [evictFirstFree]
  | cons e rest ih =>
    by_cases h : e.strong_count == 1
    · simp [evictFirstFree, h]
      intro hcontra
      exact absurd (beq_iff_eq.mp h) hcontra
    · simp only [evictFirstFree, h, Bool.false_eq_true, if_neg, not_false_iff,
        Option.map_eq_none', ih, List.mem_cons]
      constructor
      · intro hall x hx
        rcases hx with rfl | hmem
        · exact fun hc => by simp [hc] at h
        · exact hall x hmem
      · intro hall x hx
        exact hall x (Or.inr hx)

lemma evictFirstFree_some {queue q' : List CacheEntry}
    (h : evictFirstFree queue = some q') :
    ∃ pre e suf, queue = pre ++ e :: suf ∧ q' = pre ++ suf ∧
      e.strong_count = 1 ∧ ∀ x ∈ pre, x.strong_count ≠ 1 := by
  induction queue generalizing q' with
  | nil => simp [evictFirstFree] at h
  | cons e rest ih =>
    by_cases he : e.strong_count == 1
    · rw [evictFirstFree, if_pos he] at h
      injection h with h2
      subst h2
      exact ⟨[], e, rest, by simp, by simp, beq_iff_eq.mp he, by simp⟩
    · rw [evictFirstFree, if_neg he] at h
      match hrec : evictFirstFree rest with
      | none => rw [hrec] at h; simp at h
      | some r =>
        rw [hrec] at h
        simp only [Option.map_some', Option.some.injEq] at h
        obtain ⟨pre, x, suf, h1, h2, h3, h4⟩ := ih hrec
        refine ⟨e :: pre, x, suf, by rw [h1, List.cons_append], by rw [← h, h2, List.cons_append], h3, ?_⟩
        intro y hy
        rcases List.mem_cons.mp hy with rfl | hmem
        · exact fun hc => by simp [hc] at he
        · exact h4 y hmem

lemma mem_poolIds {queue : List CacheEntry} {id : Nat} :
    id ∈ poolIds queue ↔ ∃ e ∈ queue, e.block_id = id := by
  simp [poolIds]

lemma find?_block_eq_none {queue : List CacheEntry} {id : Nat} :
    queue.find? (fun p => p.block_id == id) = none ↔ id ∉ poolIds queue := by
  rw [List.find?_eq_none]
  constructor
  · intro h hmem
    obtain ⟨x, hx, hid⟩ := mem_poolIds.mp hmem
    exact h x hx (by simp [hid])
  · intro h x hx hbeq
    exact h (mem_poolIds.mpr ⟨x, hx, beq_iff_eq.mp hbeq⟩)

lemma evictFirstFree_eq {pre suf : List CacheEntry} {e : CacheEntry}
    (hpre : ∀ x ∈ pre, x.strong_count ≠ 1) (he : e.strong_count = 1) :
    evictFirstFree (pre ++ e :: suf) = some (pre ++ suf) := by
  induction pre with
  | nil => simp [evictFirstFree, he]
  | cons a t ih =>
    have ha : ¬ (a.strong_count == 1) = true := by
      simp only [beq_iff_eq]
      exact hpre a (by simp)
    rw [List.cons_append, evictFirstFree, if_neg ha,
      ih (fun x hx => hpre x (by simp [hx]))]
    rfl

/-- C1: at most one cache entry per block index.  On a hit `get_block_cache`
returns the already-resident entry (same id, strong count bumped by the
`Arc::clone`) and admits nothing; a new entry is admitted only when no entry
with that index is resident; distinctness of resident ids is preserved. -/
theorem cache_unique_per_block (queue : List CacheEntry) (block_id : Nat)
    (hnodup : (poolIds queue).Nodup) :
    ∀ r q', get_block_cache queue block_id = some (r, q') →
      (poolIds q').Nodup ∧ r.block_id = block_id ∧
      (block_id ∈ poolIds queue →
        poolIds q' = poolIds queue ∧
        ∃ e ∈ queue, e.block_id = block_id ∧ r.strong_count = e.strong_count + 1) ∧
      (block_id ∉ poolIds queue →
        ∃ q0, q' = q0 ++ [⟨block_id, 2⟩] ∧ (poolIds q0).Sublist (poolIds queue)) := by
  intro r q' h
  rw [get_block_cache] at h
  match hfind : queue.find? (fun pair => pair.block_id == block_id) with
  | some pair =>
    rw [hfind] at h
    simp only [Option.some.injEq, Prod.mk.injEq] at h
    obtain ⟨hr, hq'⟩ := h
    have hpmem : pair ∈ queue := List.mem_of_find?_eq_some hfind
    have hpid : pair.block_id = block_id :=
      beq_iff_eq.mp (List.find?_some (p := fun (pair : CacheEntry) => pair.block_id == block_id) hfind)
    have hin : block_id ∈ poolIds queue := mem_poolIds.mpr ⟨pair, hpmem, hpid⟩
    refine ⟨?_, ?_, fun _ => ⟨?_, pair, hpmem, hpid, ?_⟩, fun hnot => absurd hin hnot⟩
    · rw [← hq', bumpFirst_ids]
      exact hnodup
    · rw [← hr, hpid]
    · rw [← hq', bumpFirst_ids]
    · rw [← hr]
  | none =>
    rw [hfind] at h
    have hnotin : block_id ∉ poolIds queue := find?_block_eq_none.mp hfind
    simp only at h
    by_cases hlen : queue.length == BLOCK_CACHE_SIZE
    · rw [if_pos hlen] at h
      match hev : evictFirstFree queue with
      | none => rw [hev] at h; simp at h
      | some q0 =>
        rw [hev] at h
        simp only [Option.map_some', Option.some.injEq, Prod.mk.injEq] at h
        obtain ⟨hr, hq'⟩ := h
        obtain ⟨pre, e, suf, hqeq, hq0, -, -⟩ := evictFirstFree_some hev
        have hsub : (poolIds q0).Sublist (poolIds queue) := by
          rw [hq0, hqeq, poolIds, poolIds]
          exact List.Sublist.map _ (List.Sublist.append_left (List.sublist_cons_self _ _) pre)
        refine ⟨?_, by rw [← hr], fun hin => absurd hin hnotin, fun _ => ⟨q0, hq'.symm, hsub⟩⟩
        rw [← hq', poolIds, List.map_append]
        have h0 : (poolIds q0).Nodup := hsub.nodup hnodup
        have h1 : block_id ∉ poolIds q0 := fun hc => hnotin (hsub.subset hc)
        simp only [List.map_cons, List.map_nil]
        rw [List.nodup_append]
        exact ⟨h0, List.nodup_singleton _, by
          intro a ha hb
          simp only [List.mem_singleton] at hb
          subst hb
          exact h1 ha⟩
    · rw [if_neg hlen] at h
      simp only [Option.map_some', Option.some.injEq, Prod.mk.injEq] at h
      obtain ⟨hr, hq'⟩ := h
      refine ⟨?_, by rw [← hr], fun hin => absurd hin hnotin,
        fun _ => ⟨queue, hq'.symm, List.Sublist.refl _⟩⟩
      rw [← hq', poolIds, List.map_append]
      simp only [List.map_cons, List.map_nil]
      rw [List.nodup_append]
      exact ⟨hnodup, List.nodup_singleton _, by
        intro a ha hb
        simp only [List.mem_singleton] at hb
        subst hb
        exact hnotin ha⟩

/-- Witness for the uniqueness theorem: a hit on a two-entry pool. -/
theorem cache_unique_per_block_witness :
    (poolIds [⟨3, 2⟩, ⟨5, 1⟩]).Nodup ∧
    (get_block_cache [⟨3, 2⟩, ⟨5, 1⟩] 5).map (fun r => poolIds r.2) = some [3, 5] := by
  have h := cache_unique_per_block [⟨3, 2⟩, ⟨5, 1⟩] 5 (by decide) ⟨5, 2⟩
      [⟨3, 2⟩, ⟨5, 2⟩] (by decide)
  refine ⟨by decide, ?_⟩
  have h2 := (h.2.2.1 (by decide)).1
  rw [show get_block_cache [⟨3, 2⟩, ⟨5, 1⟩] 5 =
      some (⟨5, 2⟩, [⟨3, 2⟩, ⟨5, 2⟩]) from by decide]
  rw [Option.map_some']
  rw [show poolIds [(⟨3, 2⟩ : CacheEntry), ⟨5, 2⟩] = [3, 5] from by decide]

/-- C4: the pool never exceeds 16 entries; a miss at capacity evicts the
first entry in admission order with strong count 1 and admits the new block
at the tail; pinned entries are never evicted; if all entries are pinned the
miss is fatal (`none`). -/
theorem cache_capacity_eviction (queue : List CacheEntry) (block_id : Nat)
    (hcap : queue.length ≤ BLOCK_CACHE_SIZE) :
    (∀ r q', get_block_cache queue block_id = some (r, q') →
       q'.length ≤ BLOCK_CACHE_SIZE) ∧
    (∀ r q', get_block_cache queue block_id = some (r, q') →
       ∀ e ∈ queue, e.strong_count ≠ 1 → e.block_id ∈ poolIds q') ∧
    (queue.length = BLOCK_CACHE_SIZE → block_id ∉ poolIds queue →
      (∀ e ∈ queue, e.strong_count ≠ 1) →
      get_block_cache queue block_id = none) ∧
    (∀ pre e suf, queue = pre ++ e :: suf → queue.length = BLOCK_CACHE_SIZE →
      block_id ∉ poolIds queue → e.strong_count = 1 →
      (∀ x ∈ pre, x.strong_count ≠ 1) →
      get_block_cache queue block_id =
        some (⟨block_id, 2⟩, (pre ++ suf) ++ [⟨block_id, 2⟩])) := by
  refine ⟨?_, ?_, ?_, ?_⟩
  · intro r q' h
    rw [get_block_cache] at h
    match hfind : queue.find? (fun pair => pair.block_id == block_id) with
    | some pair =>
      rw [hfind] at h
      simp only [Option.some.injEq, Prod.mk.injEq] at h
      rw [← h.2, bumpFirst_length]
      exact hcap
    | none =>
      rw [hfind] at h
      simp only at h
      by_cases hlen : queue.length == BLOCK_CACHE_SIZE
      · rw [if_pos hlen] at h
        match hev : evictFirstFree queue with
        | none => rw [hev] at h; simp at h
        | some q0 =>
          rw [hev] at h
          simp only [Option.map_some', Option.some.injEq, Prod.mk.injEq] at h
          obtain ⟨pre, e, suf, hqeq, hq0, -, -⟩ := evictFirstFree_some hev
          have hlq : queue.length = BLOCK_CACHE_SIZE := beq_iff_eq.mp hlen
          have : q0.length + 1 = queue.length := by
            rw [hq0, hqeq]
            simp only [List.length_append, List.length_cons]
            omega
          rw [← h.2]
          simp only [List.length_append, List.length_cons, List.length_nil]
          omega
      · rw [if_neg hlen] at h
        simp only [Option.map_some', Option.some.injEq, Prod.mk.injEq] at h
        have : queue.length ≠ BLOCK_CACHE_SIZE := fun hc => hlen (by simp [hc])
        rw [← h.2]
        simp only [List.length_append, List.length_cons, List.length_nil]
        omega
  · intro r q' h e he hpin
    rw [get_block_cache] at h
    match hfind : queue.find? (fun pair => pair.block_id == block_id) with
    | some pair =>
      rw [hfind] at h
      simp only [Option.some.injEq, Prod.mk.injEq] at h
      rw [← h.2, bumpFirst_ids]
      exact List.mem_map_of_mem _ he
    | none =>
      rw [hfind] at h
      simp only at h
      by_cases hlen : queue.length == BLOCK_CACHE_SIZE
      · rw [if_pos hlen] at h
        match hev : evictFirstFree queue with
        | none => rw [hev] at h; simp at h
        | some q0 =>
          rw [hev] at h
          simp only [Option.map_some', Option.some.injEq, Prod.mk.injEq] at h
          obtain ⟨pre, x, suf, hqeq, hq0, hx1, -⟩ := evictFirstFree_some hev
          have hemem : e ∈ q0 := by
            rw [hq0]
            rw [hqeq] at he
            rcases List.mem_append.mp he with hp | hs
            · exact List.mem_append.mpr (Or.inl hp)
            · rcases List.mem_cons.mp hs with rfl | hss
              · exact absurd hx1 hpin
              · exact List.mem_append.mpr (Or.inr hss)
          rw [← h.2, poolIds, List.map_append]
          exact List.mem_append.mpr (Or.inl (List.mem_map_of_mem _ hemem))
      · rw [if_neg hlen] at h
        simp only [Option.map_some', Option.some.injEq, Prod.mk.injEq] at h
        rw [← h.2, poolIds, List.map_append]
        exact List.mem_append.mpr (Or.inl (List.mem_map_of_mem _ he))
  · intro hlen hnotin hall
    rw [get_block_cache, find?_block_eq_none.mpr hnotin]
    simp only
    rw [if_pos (by simp [hlen]), evictFirstFree_none.mpr hall]
    rfl
  · intro pre e suf hqeq hlen hnotin he hpre
    rw [get_block_cache, find?_block_eq_none.mpr hnotin]
    simp only
    rw [if_pos (by simp [hlen]), hqeq, evictFirstFree_eq hpre he]
    rfl

/-- Witness for the capacity/eviction theorem at a concrete full pool with
its second entry free. -/
theorem cache_capacity_eviction_witness :
    get_block_cache
      [⟨0, 2⟩, ⟨1, 1⟩, ⟨2, 2⟩, ⟨3, 2⟩, ⟨4, 2⟩, ⟨5, 2⟩, ⟨6, 2⟩, ⟨7, 2⟩,
       ⟨8, 2⟩, ⟨9, 2⟩, ⟨10, 2⟩, ⟨11, 2⟩, ⟨12, 2⟩, ⟨13, 2⟩, ⟨14, 2⟩, ⟨15, 2⟩] 99 =
      some (⟨99, 2⟩,
        [⟨0, 2⟩, ⟨2, 2⟩, ⟨3, 2⟩, ⟨4, 2⟩, ⟨5, 2⟩, ⟨6, 2⟩, ⟨7, 2⟩,
         ⟨8, 2⟩, ⟨9, 2⟩, ⟨10, 2⟩, ⟨11, 2⟩, ⟨12, 2⟩, ⟨13, 2⟩, ⟨14, 2⟩, ⟨15, 2⟩,
         ⟨99, 2⟩]) := by
  have h := (cache_capacity_eviction
      [⟨0, 2⟩, ⟨1, 1⟩, ⟨2, 2⟩, ⟨3, 2⟩, ⟨4, 2⟩, ⟨5, 2⟩, ⟨6, 2⟩, ⟨7, 2⟩,
       ⟨8, 2⟩, ⟨9, 2⟩, ⟨10, 2⟩, ⟨11, 2⟩, ⟨12, 2⟩, ⟨13, 2⟩, ⟨14, 2⟩, ⟨15, 2⟩] 99
      (by decide)).2.2.2 [⟨0, 2⟩] ⟨1, 1⟩
      [⟨2, 2⟩, ⟨3, 2⟩, ⟨4, 2⟩, ⟨5, 2⟩, ⟨6, 2⟩, ⟨7, 2⟩,
       ⟨8, 2⟩, ⟨9, 2⟩, ⟨10, 2⟩, ⟨11, 2⟩, ⟨12, 2⟩, ⟨13, 2⟩, ⟨14, 2⟩, ⟨15, 2⟩]
      (by decide) (by decide) (by decide) (by decide) (by decide)
  exact h

/-! ## Virtual inode layer (`easy-fs/src/vfs.rs`)

`vfs.rs` is in the source tree; the `layout.rs` / `efs.rs` types it uses
(`DiskInode`, `DirEntry`, `DiskInodeType`, `EasyFileSystem`) are not, so
those are modelled from the spec (§4.3–§4.5).  Directories are modelled at
the record level (§4.5: a directory's logical content is
`size / record_width` consecutive `DirEntry` records, and `vfs.rs` only
ever accesses directories at record-aligned offsets), and file inodes at
the byte level (§4.4).  The state carries both the cached copy (the block
cache's view) and the device copy of each mutable region;
`block_cache_sync_all` copies cache to device. -/

/-- Modelled from the spec: `DiskInodeType` of `layout.rs`
(§4.4 "type tag {File, Directory}"). -/
inductive DiskInodeType
  | file
  | directory
deriving DecidableEq, Repr

/-- Modelled from the spec: the fixed-width `DirEntry` record of `layout.rs`
(§4.5: a (name, inode id) record; `as_bytes`/`from_bytes` round-trip
exactly, so a directory is modelled as the list of its records). -/
structure DirEntry where
  name : String
  inode_id : Nat
deriving DecidableEq, Repr

/-- `DirEntry::empty()`. -/
def DirEntry.empty : DirEntry := ⟨"", 0⟩

/-- Modelled from the spec: a directory-typed on-disk inode (§4.4/§4.5):
its type tag and its packed array of records. -/
structure DirInode where
  type_ : DiskInodeType
  entries : List DirEntry
deriving DecidableEq, Repr

/-- Modelled from the spec: a file-typed on-disk inode (§4.4) at the byte
level: type tag, byte size, byte content. -/
structure FileInode where
  type_ : DiskInodeType
  size : Nat
  data : Nat → Nat

/-- Modelled from the spec: `DiskInode::initialize(DiskInodeType::File)`
(§4.6 create "initialize it as an empty File"). -/
def emptyFile : FileInode := ⟨DiskInodeType.file, 0, fun _ => 0⟩

/-- Modelled from the spec: `DiskInode::read_at` (§4.4): clips to
`min(buffer.len(), size - offset)` and returns the bytes read; empty
result if `offset >= size`. -/
def FileInode.read_at (ino : FileInode) (offset len : Nat) : List Nat :=
  if ino.size ≤ offset then []
  else (List.range (min len (ino.size - offset))).map (fun k => ino.data (offset + k))

/-- Modelled from the spec: `DiskInode::write_at` (§4.4): writes exactly
`buf.length` bytes starting at `offset` (the caller must already have grown
the inode); returns the number of bytes written. -/
def FileInode.write_at (ino : FileInode) (offset : Nat) (buf : List Nat) :
    Nat × FileInode :=
  (buf.length,
   { ino with data := fun i =>
       if offset ≤ i ∧ i < offset + buf.length then buf.getD (i - offset) 0
       else ino.data i })

/-- Modelled from the spec: `DiskInode::increase_size` (§4.4): wires in the
freshly allocated blocks and updates `size`; no-op if `new_size < size`. -/
def FileInode.increase_size (ino : FileInode) (new_size : Nat) : FileInode :=
  if new_size < ino.size then ino else { ino with size := new_size }

/-- Modelled from the spec: the inode-table layout constants of
`EasyFileSystem` (§4.3 `locate_inode`, fixed-size-record arithmetic over
the inode table region). -/
structure Layout where
  inode_area_start_block : Nat
  inodes_per_block : Nat
  inode_size : Nat

/-- Modelled from the spec: `EasyFileSystem::get_disk_inode_pos` (§4.3
`locate_inode(inode_id) -> (block_index, byte_offset)` by fixed-size-record
arithmetic). -/
def get_disk_inode_pos (ly : Layout) (inode_id : Nat) : Nat × Nat :=
  (ly.inode_area_start_block + inode_id / ly.inodes_per_block,
   (inode_id % ly.inodes_per_block) * ly.inode_size)

/-- The filesystem state the rooted vfs operations act on: cached copies
(the block cache's view) and device copies (what has been flushed) of the
root directory, the inode bitmap region and the inode table. -/
structure FSState where
  root : DirInode
  ibitmap : List (List Nat)
  table : Nat → FileInode
  disk_root : DirInode
  disk_ibitmap : List (List Nat)
  disk_table : Nat → FileInode

/-- `block_cache_sync_all` (`block_cache.rs`): flush every dirty cache
entry to the device, copying the cached state over the device state. -/
def block_cache_sync_all (st : FSState) : FSState :=
  { st with disk_root := st.root, disk_ibitmap := st.ibitmap,
            disk_table := st.table }

/-- `Inode::find_inode_id`: asserts `is_dir` (outer `none` models the
failed assertion), then linearly scans the records for the first name
match and returns its inode id. -/
def find_inode_id (self : DirInode) (name : String) : Option (Option Nat) :=
  if self.type_ = DiskInodeType.directory then
    some ((self.entries.find? (fun e => e.name == name)).map DirEntry.inode_id)
  else none

/-- `Inode::find`: resolve `name` to the inode's address via
`get_disk_inode_pos`.  Outer `none` is the `is_dir` assertion failure. -/
def Inode.find (ly : Layout) (st : FSState) (name : String) :
    Option (Option (Nat × Nat)) :=
  (find_inode_id st.root name).map (fun r => r.map (get_disk_inode_pos ly))

/-- `Inode::create`: fails (inner `none`) on a duplicate name, leaving the
state unchanged; otherwise allocates an inode id from the inode bitmap
(`alloc_inode`, modelled from the spec §4.3 as delegation to the inode
bitmap, exhaustion being fatal), initializes it as an empty file, appends
one record binding `name` to it, and flushes all dirty cache entries.
Outer `none` is a fatal condition (`is_dir` assertion or exhaustion). -/
def Inode.create (ly : Layout) (st : FSState) (name : String) :
    Option (Option (Nat × Nat) × FSState) :=
  match find_inode_id st.root name with
  | none => none
  | some (some _) => some (none, st)
  | some none =>
    match Bitmap.alloc st.ibitmap with
    | none => none
    | some (new_inode_id, ib2) =>
      let st1 : FSState :=
        { st with
          ibitmap := ib2
          table := fun i => if i = new_inode_id then emptyFile else st.table i
          root := { st.root with
            entries := st.root.entries ++ [⟨name, new_inode_id⟩] } }
      some (some (get_disk_inode_pos ly new_inode_id), block_cache_sync_all st1)

/-- `Inode::link`: fails (inner `none`) when `old` is not present;
otherwise appends one record binding `new_name` to the same inode id and
returns the inode's address.  No sync is performed before returning.
Outer `none` is the `is_dir` assertion failure. -/
def Inode.link (ly : Layout) (st : FSState) (old new_name : String) :
    Option (Option (Nat × Nat) × FSState) :=
  match find_inode_id st.root old with
  | none => none
  | some none => some (none, st)
  | some (some old_inode_id) =>
    some (some (get_disk_inode_pos ly old_inode_id),
      { st with root := { st.root with
          entries := st.root.entries ++ [⟨new_name, old_inode_id⟩] } })

/-- The loop in `Inode::unlink`: index of the first record whose name
matches. -/
def unlinkLoopIdx (name : String) : List DirEntry → Option Nat
  | [] => none
  | e :: rest =>
    if e.name == name then some 0
    else (unlinkLoopIdx name rest).map (fun i => i + 1)

/-- `Inode::unlink`: `-1` when `name` is not found; otherwise copy the last
record over the first matching slot and shrink by one record width.  No
sync is performed before returning.  Outer `none` is the `is_dir`
assertion failure. -/
def Inode.unlink (st : FSState) (name : String) : Option (Int × FSState) :=
  match find_inode_id st.root name with
  | none => none
  | some none => some (-1, st)
  | some (some _) =>
    let entries := st.root.entries
    let entries2 :=
      match unlinkLoopIdx name entries with
      | none => entries
      | some i =>
        (entries.set i (entries.getD (entries.length - 1) DirEntry.empty)).dropLast
    some (0, { st with root := { st.root with entries := entries2 } })

/-- `Inode::get_link_num`: count of the records whose inode id resolves via
`get_disk_inode_pos` to the given `(block_id, block_offset)` address. -/
def Inode.get_link_num (ly : Layout) (st : FSState)
    (block_id block_offset : Nat) : Nat :=
  st.root.entries.countP
    (fun e => decide (get_disk_inode_pos ly e.inode_id = (block_id, block_offset)))

/-- `Inode::write_at` on the inode with id `id`: grow the on-disk inode to
cover `(offset + buf.len()) as u32` — the cast truncates the growth target
modulo `2 ^ 32` — (`Inode::increase_size` returns early when that is below
the current size), write the bytes, then `block_cache_sync_all`. -/
def Inode.write_at (st : FSState) (id offset : Nat) (buf : List Nat) :
    Nat × FSState :=
  let ino := st.table id
  let new_size := (offset + buf.length) % 2 ^ 32
  let ino1 :=
    if new_size < ino.size then ino
    else FileInode.increase_size ino new_size
  let r := FileInode.write_at ino1 offset buf
  let st1 := { st with table := fun i => if i = id then r.2 else st.table i }
  (r.1, block_cache_sync_all st1)

/-- `Inode::read_at` on the inode with id `id`. -/
def Inode.read_at (st : FSState) (id offset len : Nat) : List Nat :=
  FileInode.read_at (st.table id) offset len

/-! ### List lemmas for the directory operations -/

lemma unlinkLoopIdx_spec {name : String} {l : List DirEntry} {i : Nat}
    (h : unlinkLoopIdx name l = some i) :
    i < l.length ∧ (l.getD i DirEntry.empty).name = name ∧
      ∀ j, j < i → (l.getD j DirEntry.empty).name ≠ name := by
  induction l generalizing i with
  | nil => simp [unlinkLoopIdx] at h
  | cons e rest ih =>
    by_cases he : e.name == name
    · rw [unlinkLoopIdx, if_pos he] at h
      injection h with h2
      subst h2
      exact ⟨by simp, beq_iff_eq.mp he, by omega⟩
    · rw [unlinkLoopIdx, if_neg he] at h
      match hrec : unlinkLoopIdx name rest with
      | none => rw [hrec] at h; simp at h
      | some i0 =>
        rw [hrec] at h
        simp only [Option.map_some', Option.some.injEq] at h
        subst h
        obtain ⟨h1, h2, h3⟩ := ih hrec
        refine ⟨by simp only [List.length_cons]; omega, h2, ?_⟩
        intro j hj
        cases j with
        | zero =>
          simp only [List.getD_cons_zero]
          exact fun hc => he (by simp [hc])
        | succ m => exact h3 m (by omega)

lemma unlinkLoopIdx_none_iff_find?_none {name : String} {l : List DirEntry} :
    unlinkLoopIdx name l = none ↔ l.find? (fun e => e.name == name) = none := by
  induction l with
  | nil => simp [unlinkLoopIdx]
  | cons e rest ih =>
    by_cases he : e.name == name
    · rw [unlinkLoopIdx, if_pos he]
      have hf : List.find? (fun x => x.name == name) (e :: rest) = some e :=
        List.find?_cons_of_pos _ he
      rw [hf]
      simp
    · rw [unlinkLoopIdx, if_neg he, List.find?_cons_of_neg _ (by simpa using he)]
      rw [← ih]
      simp

lemma getD_eq_getLast {α : Type} {l : List α} (h : l ≠ []) (d : α) :
    l.getD (l.length - 1) d = l.getLast h := by
  have hlen : l.length - 1 < l.length := by
    have := List.length_pos.mpr h
    omega
  rw [List.getD_eq_getElem?_getD, List.getElem?_eq_getElem hlen]
  rw [List.getLast_eq_getElem]
  rfl

lemma set_last_dropLast_perm {α : Type} (d : α) :
    ∀ (l : List α) (i : Nat), i < l.length →
      ((l.set i (l.getD (l.length - 1) d)).dropLast).Perm (l.eraseIdx i) := by
  intro l
  induction l with
  | nil => intro i hi; simp at hi
  | cons a t ih =>
    intro i hi
    cases i with
    | zero =>
      match t with
      | [] => simp
      | b :: t2 =>
        have hne : b :: t2 ≠ ([] : List α) := by simp
        have hx : (a :: b :: t2).getD ((a :: b :: t2).length - 1) d =
            (b :: t2).getLast hne := by
          rw [show (a :: b :: t2).length - 1 = ((b :: t2).length - 1) + 1 by
            simp only [List.length_cons]; omega]
          rw [List.getD_cons_succ]
          exact getD_eq_getLast hne d
        rw [hx, List.set_cons_zero, List.eraseIdx_cons_zero]
        rw [List.dropLast_cons_of_ne_nil hne]
        have hperm : ([(b :: t2).getLast hne] ++ (b :: t2).dropLast).Perm
            ((b :: t2).dropLast ++ [(b :: t2).getLast hne]) :=
          List.perm_append_comm
        refine List.Perm.trans ?_ ((hperm).trans ?_)
        · rfl
        · rw [List.dropLast_concat_getLast hne]
    | succ n =>
      have hn : n < t.length := by simp only [List.length_cons] at hi; omega
      have htne : t ≠ [] := by
        intro h0
        rw [h0] at hn
        simp at hn
      have hx : (a :: t).getD ((a :: t).length - 1) d = t.getD (t.length - 1) d := by
        rw [show (a :: t).length - 1 = (t.length - 1) + 1 by
          simp only [List.length_cons]
          have := List.length_pos.mpr htne
          omega]
        rw [List.getD_cons_succ]
      rw [hx, List.set_cons_succ, List.eraseIdx_cons_succ]
      have hsetne : t.set n (t.getD (t.length - 1) d) ≠ [] := by
        intro h0
        have hle := congrArg List.length h0
        simp only [List.length_set, List.length_nil] at hle
        omega
      rw [List.dropLast_cons_of_ne_nil hsetne]
      exact (ih n hn).cons a

lemma mem_eraseIdx_of_ne {α : Type} (d : α) :
    ∀ (l : List α) (i : Nat) (x : α), x ∈ l → x ≠ l.getD i d →
      x ∈ l.eraseIdx i := by
  intro l
  induction l with
  | nil => intro i x hx; simp at hx
  | cons a t ih =>
    intro i x hx hne
    cases i with
    | zero =>
      rw [List.eraseIdx_cons_zero]
      rcases List.mem_cons.mp hx with rfl | hmem
      · rw [List.getD_cons_zero] at hne
        exact absurd rfl hne
      · exact hmem
    | succ n =>
      rw [List.eraseIdx_cons_succ]
      rcases List.mem_cons.mp hx with rfl | hmem
      · exact List.mem_cons_self _ _
      · refine List.mem_cons.mpr (Or.inr (ih n x hmem ?_))
        rw [List.getD_cons_succ] at hne
        exact hne

lemma map_range_getD (buf : List Nat) :
    (List.range buf.length).map (fun k => buf.getD k 0) = buf := by
  apply List.ext_getElem
  · simp
  · intro i h1 h2
    rw [List.getElem_map, List.getElem_range, List.getD_eq_getElem?_getD,
      List.getElem?_eq_getElem h2]
    rfl

/-! ### Claim theorems for the vfs layer -/

/-- C3: `unlink` on a missing name returns `-1` and leaves everything
unchanged; on a present name it removes exactly the first matching record
by swap-with-last-then-shrink, so the entry count drops by one, the
resulting records are a permutation of the original with the first match
erased, and every other name remains findable. -/
theorem unlink_swap_shrink (st : FSState) (name : String)
    (hdir : st.root.type_ = DiskInodeType.directory) :
    (st.root.entries.find? (fun e => e.name == name) = none →
      Inode.unlink st name = some (-1, st)) ∧
    (∀ i, unlinkLoopIdx name st.root.entries = some i →
      ∃ st', Inode.unlink st name = some (0, st') ∧
        st'.root.entries.length + 1 = st.root.entries.length ∧
        st'.root.entries.Perm (st.root.entries.eraseIdx i) ∧
        i < st.root.entries.length ∧
        (st.root.entries.getD i DirEntry.empty).name = name ∧
        (∀ j, j < i → (st.root.entries.getD j DirEntry.empty).name ≠ name) ∧
        (∀ n, n ≠ name → (∃ e ∈ st.root.entries, e.name = n) →
          ∃ e ∈ st'.root.entries, e.name = n) ∧
        st'.ibitmap = st.ibitmap ∧ st'.table = st.table ∧
        st'.disk_root = st.disk_root) := by
  constructor
  · intro hnone
    rw [Inode.unlink, find_inode_id, if_pos hdir, hnone]
    rfl
  · intro i hidx
    obtain ⟨hi, hname, hbefore⟩ := unlinkLoopIdx_spec hidx
    have hfind : st.root.entries.find? (fun e => e.name == name) ≠ none := by
      intro hc
      rw [← unlinkLoopIdx_none_iff_find?_none] at hc
      rw [hidx] at hc
      exact Option.noConfusion hc
    match hf : st.root.entries.find? (fun e => e.name == name) with
    | none => exact absurd hf hfind
    | some e0 =>
      refine ⟨{ st with root := { st.root with entries :=
          (st.root.entries.set i
            (st.root.entries.getD (st.root.entries.length - 1) DirEntry.empty)).dropLast } },
        ?_, ?_, ?_, hi, hname, hbefore, ?_, rfl, rfl, rfl⟩
      · simp only [Inode.unlink, find_inode_id, if_pos hdir, hf, Option.map_some', hidx]
      · simp only [List.length_dropLast, List.length_set]
        omega
      · exact set_last_dropLast_perm DirEntry.empty st.root.entries i hi
      · intro n hn ⟨e, hemem, hen⟩
        have hne : e ≠ st.root.entries.getD i DirEntry.empty := by
          intro hc
          rw [hc] at hen
          rw [hname] at hen
          exact hn hen.symm
        have hmem2 : e ∈ st.root.entries.eraseIdx i :=
          mem_eraseIdx_of_ne DirEntry.empty st.root.entries i e hemem hne
        refine ⟨e, ?_, hen⟩
        exact ((set_last_dropLast_perm DirEntry.empty st.root.entries i hi).mem_iff).mpr hmem2

/-- Witness for the unlink theorem at a concrete two-entry directory. -/
theorem unlink_swap_shrink_witness :
    (Inode.unlink
      { root := ⟨DiskInodeType.directory, [⟨"a", 0⟩, ⟨"b", 1⟩]⟩,
        ibitmap := [], table := fun _ => emptyFile,
        disk_root := ⟨DiskInodeType.directory, [⟨"a", 0⟩, ⟨"b", 1⟩]⟩,
        disk_ibitmap := [], disk_table := fun _ => emptyFile } "a").map
        (fun r => (r.1, r.2.root.entries.length)) = some (0, 1) := by
  obtain ⟨st', h1, h2, -⟩ :=
    (unlink_swap_shrink
      { root := ⟨DiskInodeType.directory, [⟨"a", 0⟩, ⟨"b", 1⟩]⟩,
        ibitmap := [], table := fun _ => emptyFile,
        disk_root := ⟨DiskInodeType.directory, [⟨"a", 0⟩, ⟨"b", 1⟩]⟩,
        disk_ibitmap := [], disk_table := fun _ => emptyFile } "a" rfl).2 0 (by decide)
  rw [h1, Option.map_some']
  simp only [List.length_cons, List.length_nil] at h2
  rw [show st'.root.entries.length = 1 from by omega]

/-- C10: `find`, `create`, `link` and `unlink` on a handle whose on-disk
inode is not a directory all fail the `is_dir` assertion (a fatal panic,
modelled as `none`), rather than returning a recoverable result. -/
theorem dir_ops_assert_is_dir (ly : Layout) (st : FSState)
    (name old new_name : String) (hfile : st.root.type_ = DiskInodeType.file) :
    Inode.find ly st name = none ∧ Inode.create ly st name = none ∧
    Inode.link ly st old new_name = none ∧ Inode.unlink st name = none := by
  have hfid : ∀ n, find_inode_id st.root n = none := by
    intro n
    rw [find_inode_id, if_neg]
    rw [hfile]
    intro h
    exact DiskInodeType.noConfusion h
  refine ⟨?_, ?_, ?_, ?_⟩
  · rw [Inode.find, hfid]
    rfl
  · rw [Inode.create, hfid]
  · rw [Inode.link, hfid]
  · rw [Inode.unlink, hfid]

/-- Witness for the `is_dir` assertion theorem at a concrete file-typed
inode. -/
theorem dir_ops_assert_is_dir_witness :
    Inode.unlink
      { root := ⟨DiskInodeType.file, []⟩, ibitmap := [],
        table := fun _ => emptyFile, disk_root := ⟨DiskInodeType.file, []⟩,
        disk_ibitmap := [], disk_table := fun _ => emptyFile } "a" = none ∧
    Inode.find ⟨2, 4, 128⟩
      { root := ⟨DiskInodeType.file, []⟩, ibitmap := [],
        table := fun _ => emptyFile, disk_root := ⟨DiskInodeType.file, []⟩,
        disk_ibitmap := [], disk_table := fun _ => emptyFile } "a" = none := by
  have h := dir_ops_assert_is_dir ⟨2, 4, 128⟩
      { root := ⟨DiskInodeType.file, []⟩, ibitmap := [],
        table := fun _ => emptyFile, disk_root := ⟨DiskInodeType.file, []⟩,
        disk_ibitmap := [], disk_table := fun _ => emptyFile } "a" "a" "b" rfl
  exact ⟨h.2.2.2, h.1⟩

/-- C6: `create` fails with `None` and changes nothing when the name
exists; otherwise it allocates a fresh (previously clear) inode id from the
inode bitmap, initializes it as an empty file, appends exactly one record
binding the name to it, flushes all dirty cache entries, and returns the
new inode's address. -/
theorem create_fresh_inode (ly : Layout) (st : FSState) (name : String)
    (hdir : st.root.type_ = DiskInodeType.directory) (hwf : WF st.ibitmap) :
    (∀ e0, st.root.entries.find? (fun e => e.name == name) = some e0 →
      Inode.create ly st name = some (none, st)) ∧
    (st.root.entries.find? (fun e => e.name == name) = none →
      ∀ id ib2, Bitmap.alloc st.ibitmap = some (id, ib2) →
      ∃ st', Inode.create ly st name = some (some (get_disk_inode_pos ly id), st') ∧
        stBit st.ibitmap id = false ∧
        st'.root.entries = st.root.entries ++ [⟨name, id⟩] ∧
        st'.table id = emptyFile ∧
        (∀ j, j ≠ id → st'.table j = st.table j) ∧
        (∀ j, stBit st'.ibitmap j = (stBit st.ibitmap j || decide (j = id))) ∧
        st'.disk_root = st'.root ∧ st'.disk_table = st'.table ∧
        st'.disk_ibitmap = st'.ibitmap) := by
  constructor
  · intro e0 hf
    simp only [Inode.create, find_inode_id, if_pos hdir, hf, Option.map_some']
  · intro hf id ib2 halloc
    obtain ⟨-, hbit, -, -, -, hbits⟩ := (alloc_spec hwf).2 id ib2 halloc
    refine ⟨block_cache_sync_all
        { st with
          ibitmap := ib2
          table := fun i => if i = id then emptyFile else st.table i
          root := { st.root with entries := st.root.entries ++ [⟨name, id⟩] } },
      ?_, hbit, rfl, ?_, ?_, ?_, rfl, rfl, rfl⟩
    · simp only [Inode.create, find_inode_id, if_pos hdir, hf, Option.map_none', halloc]
    · simp only [block_cache_sync_all]
      simp
    · intro j hj
      simp only [block_cache_sync_all]
      simp [hj]
    · intro j
      simp only [block_cache_sync_all]
      exact hbits j

/-- Witness for the create theorem at a concrete one-entry directory. -/
theorem create_fresh_inode_witness :
    (Inode.create ⟨2, 4, 128⟩
      { root := ⟨DiskInodeType.directory, [⟨"a", 0⟩]⟩,
        ibitmap := [(List.replicate 64 0).set 0 1],
        table := fun _ => emptyFile,
        disk_root := ⟨DiskInodeType.directory, [⟨"a", 0⟩]⟩,
        disk_ibitmap := [(List.replicate 64 0).set 0 1],
        disk_table := fun _ => emptyFile } "b").map
        (fun r => (r.1, r.2.root.entries)) =
      some (some (2, 128), [⟨"a", 0⟩, ⟨"b", 1⟩]) := by
  obtain ⟨st', h1, -, h3, -⟩ :=
    (create_fresh_inode ⟨2, 4, 128⟩
      { root := ⟨DiskInodeType.directory, [⟨"a", 0⟩]⟩,
        ibitmap := [(List.replicate 64 0).set 0 1],
        table := fun _ => emptyFile,
        disk_root := ⟨DiskInodeType.directory, [⟨"a", 0⟩]⟩,
        disk_ibitmap := [(List.replicate 64 0).set 0 1],
        disk_table := fun _ => emptyFile } "b" rfl
      (by
        intro b hb
        rw [List.mem_singleton] at hb
        subst hb
        refine ⟨by rfl, fun w hw => ?_⟩
        rw [show (List.replicate 64 0).set 0 1 = 1 :: List.replicate 63 0 from rfl] at hw
        rcases List.mem_cons.mp hw with rfl | hmem
        · omega
        · rw [List.eq_of_mem_replicate hmem]
          omega)).2 (by decide) 1 [(1 :: List.replicate 63 0).set 0 3] rfl
  rw [h1, Option.map_some', h3]
  rfl

/-- C7: `link` fails with `None` when `old` is absent; otherwise it appends
one record binding `new_name` to `old`'s inode id without touching the
inode bitmap or table (no inode allocated) and returns `old`'s inode
address, and `get_link_num` at that address counts one more record than
before — in particular 2 when exactly the original binding existed. -/
theorem link_shares_inode (ly : Layout) (st : FSState) (old new_name : String)
    (hdir : st.root.type_ = DiskInodeType.directory) :
    (st.root.entries.find? (fun e => e.name == old) = none →
      Inode.link ly st old new_name = some (none, st)) ∧
    (∀ e0, st.root.entries.find? (fun e => e.name == old) = some e0 →
      ∃ st', Inode.link ly st old new_name =
          some (some (get_disk_inode_pos ly e0.inode_id), st') ∧
        st'.root.entries = st.root.entries ++ [⟨new_name, e0.inode_id⟩] ∧
        st'.ibitmap = st.ibitmap ∧ st'.table = st.table ∧
        Inode.get_link_num ly st' (get_disk_inode_pos ly e0.inode_id).1
            (get_disk_inode_pos ly e0.inode_id).2 =
          Inode.get_link_num ly st (get_disk_inode_pos ly e0.inode_id).1
            (get_disk_inode_pos ly e0.inode_id).2 + 1 ∧
        (Inode.get_link_num ly st (get_disk_inode_pos ly e0.inode_id).1
            (get_disk_inode_pos ly e0.inode_id).2 = 1 →
          Inode.get_link_num ly st' (get_disk_inode_pos ly e0.inode_id).1
            (get_disk_inode_pos ly e0.inode_id).2 = 2)) := by
  constructor
  · intro hf
    simp only [Inode.link, find_inode_id, if_pos hdir, hf, Option.map_none']
  · intro e0 hf
    refine ⟨{ st with root := { st.root with
        entries := st.root.entries ++ [⟨new_name, e0.inode_id⟩] } },
      ?_, rfl, rfl, rfl, ?_, ?_⟩
    · simp only [Inode.link, find_inode_id, if_pos hdir, hf, Option.map_some']
    · simp only [Inode.get_link_num, List.countP_append, List.countP_cons,
        List.countP_nil]
      simp
    · intro h1
      simp only [Inode.get_link_num] at h1 ⊢
      rw [List.countP_append, h1]
      simp [List.countP_cons]

/-- Witness for the link theorem at a concrete one-entry directory. -/
theorem link_shares_inode_witness :
    (Inode.link ⟨2, 4, 128⟩
      { root := ⟨DiskInodeType.directory, [⟨"a", 5⟩]⟩,
        ibitmap := [], table := fun _ => emptyFile,
        disk_root := ⟨DiskInodeType.directory, [⟨"a", 5⟩]⟩,
        disk_ibitmap := [], disk_table := fun _ => emptyFile } "a" "b").map
        (fun r => (r.1, r.2.root.entries)) =
      some (some (3, 128), [⟨"a", 5⟩, ⟨"b", 5⟩]) ∧
    Inode.get_link_num ⟨2, 4, 128⟩
      { root := ⟨DiskInodeType.directory, [⟨"a", 5⟩, ⟨"b", 5⟩]⟩,
        ibitmap := [], table := fun _ => emptyFile,
        disk_root := ⟨DiskInodeType.directory, [⟨"a", 5⟩]⟩,
        disk_ibitmap := [], disk_table := fun _ => emptyFile } 3 128 = 2 := by
  obtain ⟨st', h1, h2, -, -, -, h6⟩ :=
    (link_shares_inode ⟨2, 4, 128⟩
      { root := ⟨DiskInodeType.directory, [⟨"a", 5⟩]⟩,
        ibitmap := [], table := fun _ => emptyFile,
        disk_root := ⟨DiskInodeType.directory, [⟨"a", 5⟩]⟩,
        disk_ibitmap := [], disk_table := fun _ => emptyFile } "a" "b" rfl).2
      ⟨"a", 5⟩ (by decide)
  constructor
  · rw [h1, Option.map_some', h2]
    rfl
  · exact by decide

/-- Writing then reading back: `DiskInode::write_at` followed by
`DiskInode::read_at` over the written range returns the bytes written,
provided the inode covers the range. -/
lemma write_at_data_read (ino1 : FileInode) (offset : Nat) (buf : List Nat)
    (h : offset + buf.length ≤ ino1.size) :
    FileInode.read_at (FileInode.write_at ino1 offset buf).2 offset buf.length = buf := by
  rw [FileInode.read_at]
  by_cases h0 : (FileInode.write_at ino1 offset buf).2.size ≤ offset
  · rw [if_pos h0]
    simp only [FileInode.write_at] at h0
    symm
    rw [← List.length_eq_zero]
    omega
  · rw [if_neg h0]
    simp only [FileInode.write_at] at h0 ⊢
    have hmin : min buf.length (ino1.size - offset) = buf.length := by omega
    rw [hmin]
    have hcongr : ∀ k ∈ List.range buf.length,
        (if offset ≤ offset + k ∧ offset + k < offset + buf.length then
          buf.getD (offset + k - offset) 0
        else ino1.data (offset + k)) = buf.getD k 0 := by
      intro k hk
      rw [List.mem_range] at hk
      rw [if_pos ⟨by omega, by omega⟩]
      congr 1
      omega
    rw [List.map_congr_left hcongr, map_range_getD]

/-- The state used to exercise `Inode::write_at`. -/
def writeExample : FSState :=
  { root := ⟨DiskInodeType.directory, []⟩,
    ibitmap := [], table := fun _ => emptyFile,
    disk_root := ⟨DiskInodeType.directory, []⟩,
    disk_ibitmap := [], disk_table := fun _ => emptyFile }

/-- C8 counterexample: on an empty inode, a write with
`offset + buf.length = 2 ^ 32 + 1` hits the truncating
`(offset + buf.len()) as u32` cast of `Inode::write_at`: the growth target
wraps to 1, so the resulting size is 1 — not `offset + buf.length`, which
exceeds the prior size 0 — and an immediate `read_at` over the written
range returns no bytes rather than the bytes written. -/
theorem write_at_truncation_counterexample :
    emptyFile.size < 2 ^ 32 + 1 ∧
    ((Inode.write_at writeExample 0 (2 ^ 32) [5]).2.table 0).size = 1 ∧
    (1 : Nat) ≠ 2 ^ 32 + 1 ∧
    Inode.read_at (Inode.write_at writeExample 0 (2 ^ 32) [5]).2 0 (2 ^ 32) 1 = [] ∧
    ([] : List Nat) ≠ [5] := by
  refine ⟨by decide, by decide, by decide, by decide, by decide⟩

/-- C8 (amended to the `u32` range): when `offset + buf.length` fits in a
`u32`, `Inode::write_at` returns `buf.length`, grows the inode size to
`offset + buf.length` exactly when that exceeds the prior size (unchanged
otherwise), flushes all dirty cache entries before returning, and an
immediate `read_at` over the written range returns exactly the bytes
written. -/
theorem write_at_grow_flush_read_back (st : FSState) (id offset : Nat)
    (buf : List Nat) (hbound : offset + buf.length < 2 ^ 32) :
    (Inode.write_at st id offset buf).1 = buf.length ∧
    ((Inode.write_at st id offset buf).2.table id).size =
      (if (st.table id).size < offset + buf.length then offset + buf.length
       else (st.table id).size) ∧
    Inode.read_at (Inode.write_at st id offset buf).2 id offset buf.length = buf ∧
    (Inode.write_at st id offset buf).2.disk_table =
      (Inode.write_at st id offset buf).2.table ∧
    (Inode.write_at st id offset buf).2.disk_root =
      (Inode.write_at st id offset buf).2.root ∧
    (Inode.write_at st id offset buf).2.disk_ibitmap =
      (Inode.write_at st id offset buf).2.ibitmap := by
  have hmod : (offset + buf.length) % 4294967296 = offset + buf.length :=
    Nat.mod_eq_of_lt (by omega)
  have htab : (Inode.write_at st id offset buf).2.table id =
      (FileInode.write_at
        (if (offset + buf.length) < (st.table id).size then st.table id
         else FileInode.increase_size (st.table id) (offset + buf.length))
        offset buf).2 := by
    simp [Inode.write_at, block_cache_sync_all, hmod]
  have hsize1 : (if (offset + buf.length) < (st.table id).size then st.table id
      else FileInode.increase_size (st.table id) (offset + buf.length)).size =
      (if (st.table id).size < offset + buf.length then offset + buf.length
       else (st.table id).size) := by
    by_cases h1 : offset + buf.length < (st.table id).size
    · rw [if_pos h1, if_neg (by omega)]
    · rw [if_neg h1, FileInode.increase_size]
      by_cases h2 : (st.table id).size < offset + buf.length
      · rw [if_neg (by omega), if_pos h2]
      · rw [if_neg (by omega), if_neg h2]
        show offset + buf.length = (st.table id).size
        omega
  refine ⟨rfl, ?_, ?_, rfl, rfl, rfl⟩
  · rw [htab]
    simp only [FileInode.write_at]
    exact hsize1
  · rw [Inode.read_at, htab]
    apply write_at_data_read
    rw [hsize1]
    split_ifs <;> omega

/-- Witness for the write/grow theorem at a concrete small write. -/
theorem write_at_grow_flush_read_back_witness :
    (Inode.write_at writeExample 0 2 [10, 20, 30]).1 = 3 ∧
    ((Inode.write_at writeExample 0 2 [10, 20, 30]).2.table 0).size = 5 ∧
    Inode.read_at (Inode.write_at writeExample 0 2 [10, 20, 30]).2 0 2 3 =
      [10, 20, 30] := by
  have h := write_at_grow_flush_read_back writeExample 0 2 [10, 20, 30] (by decide)
  refine ⟨h.1, ?_, h.2.2.1⟩
  rw [h.2.1]
  rfl

/-- A small synced filesystem state (cache = device) used to exercise the
flush behaviour of the directory operations. -/
def syncExample : FSState :=
  { root := ⟨DiskInodeType.directory, [⟨"a", 0⟩, ⟨"b", 1⟩]⟩,
    ibitmap := [(List.replicate 64 0).set 0 3],
    table := fun _ => emptyFile,
    disk_root := ⟨DiskInodeType.directory, [⟨"a", 0⟩, ⟨"b", 1⟩]⟩,
    disk_ibitmap := [(List.replicate 64 0).set 0 3],
    disk_table := fun _ => emptyFile }

/-- C9 counterexample: a successful `unlink` returns with its directory
mutation only in the block cache — the device copy of the directory is
unchanged and differs from the cached copy, so the mutation is not flushed
by the time the operation returns. -/
theorem unlink_not_flushed_counterexample :
    (Inode.unlink syncExample "a").map
        (fun r => (r.1, r.2.root.entries, r.2.disk_root.entries)) =
      some (0, [⟨"b", 1⟩], [⟨"a", 0⟩, ⟨"b", 1⟩]) ∧
    ([(⟨"b", 1⟩ : DirEntry)] ≠ [⟨"a", 0⟩, ⟨"b", 1⟩]) := by
  constructor
  · rfl
  · decide

/-- C9 amended: `create` (on success) and `write_at` flush all dirty cache
entries before returning; `link` and `unlink` complete their directory
mutation in the block cache but return with the device copies exactly as
before the call, and a subsequent `block_cache_sync_all` flushes the cached
state to the device. -/
theorem structural_mutation_flush_policy (ly : Layout) (st : FSState)
    (name old new_name : String) (id offset : Nat) (buf : List Nat) :
    ((Inode.write_at st id offset buf).2.disk_root =
        (Inode.write_at st id offset buf).2.root ∧
     (Inode.write_at st id offset buf).2.disk_table =
        (Inode.write_at st id offset buf).2.table ∧
     (Inode.write_at st id offset buf).2.disk_ibitmap =
        (Inode.write_at st id offset buf).2.ibitmap) ∧
    (∀ p st', Inode.create ly st name = some (some p, st') →
      st'.disk_root = st'.root ∧ st'.disk_table = st'.table ∧
      st'.disk_ibitmap = st'.ibitmap) ∧
    (∀ r st', Inode.link ly st old new_name = some (r, st') →
      st'.disk_root = st.disk_root ∧ st'.disk_table = st.disk_table ∧
      st'.disk_ibitmap = st.disk_ibitmap) ∧
    (∀ r st', Inode.unlink st name = some (r, st') →
      st'.disk_root = st.disk_root ∧ st'.disk_table = st.disk_table ∧
      st'.disk_ibitmap = st.disk_ibitmap) ∧
    ((block_cache_sync_all st).disk_root = st.root ∧
     (block_cache_sync_all st).disk_table = st.table ∧
     (block_cache_sync_all st).disk_ibitmap = st.ibitmap) := by
  refine ⟨⟨rfl, rfl, rfl⟩, ?_, ?_, ?_, ⟨rfl, rfl, rfl⟩⟩
  · intro p st' h
    rw [Inode.create] at h
    match hfid : find_inode_id st.root name with
    | none => rw [hfid] at h; exact Option.noConfusion h
    | some (some v) =>
      rw [hfid] at h
      simp at h
    | some none =>
      rw [hfid] at h
      match halloc : Bitmap.alloc st.ibitmap with
      | none => rw [halloc] at h; exact Option.noConfusion h
      | some (new_inode_id, ib2) =>
        rw [halloc] at h
        simp only [Option.some.injEq, Prod.mk.injEq] at h
        rw [← h.2]
        exact ⟨rfl, rfl, rfl⟩
  · intro r st' h
    rw [Inode.link] at h
    match hfid : find_inode_id st.root old with
    | none => rw [hfid] at h; exact Option.noConfusion h
    | some none =>
      rw [hfid] at h
      simp only [Option.some.injEq, Prod.mk.injEq] at h
      rw [← h.2]
      exact ⟨rfl, rfl, rfl⟩
    | some (some oid) =>
      rw [hfid] at h
      simp only [Option.some.injEq, Prod.mk.injEq] at h
      rw [← h.2]
      exact ⟨rfl, rfl, rfl⟩
  · intro r st' h
    rw [Inode.unlink] at h
    match hfid : find_inode_id st.root name with
    | none => rw [hfid] at h; exact Option.noConfusion h
    | some none =>
      rw [hfid] at h
      simp only [Option.some.injEq, Prod.mk.injEq] at h
      rw [← h.2]
      exact ⟨rfl, rfl, rfl⟩
    | some (some v) =>
      rw [hfid] at h
      simp only [Option.some.injEq, Prod.mk.injEq] at h
      rw [← h.2]
      exact ⟨rfl, rfl, rfl⟩

/-- Witness for the flush-policy theorem at the concrete synced state. -/
theorem structural_mutation_flush_policy_witness :
    (Inode.unlink syncExample "a").map (fun r => r.2.disk_root.entries) =
      some [⟨"a", 0⟩, ⟨"b", 1⟩] := by
  have h := (structural_mutation_flush_policy ⟨2, 4, 128⟩ syncExample
      "a" "a" "b" 0 0 []).2.2.2.1 0
      { syncExample with root := ⟨DiskInodeType.directory, [⟨"b", 1⟩]⟩ } rfl
  rw [show Inode.unlink syncExample "a" =
      some (0, { syncExample with
        root := ⟨DiskInodeType.directory, [⟨"b", 1⟩]⟩ }) from rfl]
  rw [Option.map_some', h.1]
  rfl

end EasyFs
